import Mathlib

/-!
Shallow embedding of the BVH (bounding volume hierarchy) of
`examples/ray_tracer/bvh.rs`: a binned-SAH builder over a triangle mesh plus
a stack-based nearest-hit traversal, together with the ray/AABB slab test and
the Moller-Trumbore ray/triangle test.

Modelling conventions:
* `f32` values are embedded as exact rationals.  The source's `f32::MAX`
  sentinel and `f32::EPSILON` become the corresponding rational constants.
  In the one place the source divides (`inv_det = 1.0 / det`), rational
  division by zero yields `0` where IEEE would yield an infinity; every
  theorem below either avoids that case or is insensitive to the value.
* Rust `Vec` indexing panics out of bounds.  Reads on the hot paths whose
  inputs are kept in bounds by the claims under study are modelled with
  `List.getD`; writes into the node pool and the places where the concrete
  claims hinge on a panic (node-pool overflow in `subdivide`, traversal
  stack overflow in `fast_intersect`) are modelled with `Option`, `none`
  standing for a Rust panic.
* The source's `while` loops become structurally recursive functions over an
  explicit iteration budget; callers pass a budget that is exact for the
  loops whose iteration count is known (`partition_shuffle`) and a `fuel`
  parameter for the recursions that may genuinely diverge (`subdivide`,
  `fast_intersect`).
-/

namespace BvhSpec

/-- A 3D point; the source's fourth `pos` slot is alignment padding kept at 0
and never read by `dot`/`cross`, so it is omitted. -/
structure Point where
  x : ℚ
  y : ℚ
  z : ℚ
deriving DecidableEq, Repr

def Point.zero : Point := ⟨0, 0, 0⟩

instance : Inhabited Point := ⟨Point.zero⟩

def padd (a b : Point) : Point := ⟨a.x + b.x, a.y + b.y, a.z + b.z⟩

def psub (a b : Point) : Point := ⟨a.x - b.x, a.y - b.y, a.z - b.z⟩

/-- Component-wise product (`impl Mul<Point> for Point`). -/
def pmul (a b : Point) : Point := ⟨a.x * b.x, a.y * b.y, a.z * b.z⟩

/-- Scalar division (`impl Div<f32> for Point`). -/
def pdivs (a : Point) (s : ℚ) : Point := ⟨a.x / s, a.y / s, a.z / s⟩

def pmin (a b : Point) : Point := ⟨min a.x b.x, min a.y b.y, min a.z b.z⟩

def pmax (a b : Point) : Point := ⟨max a.x b.x, max a.y b.y, max a.z b.z⟩

def dot (a b : Point) : ℚ := a.x * b.x + a.y * b.y + a.z * b.z

def cross (a b : Point) : Point :=
  ⟨a.y * b.z - a.z * b.y, a.z * b.x - a.x * b.z, a.x * b.y - a.y * b.x⟩

/-- Component `pos[axis]` of a centroid; `axis` is only ever 0, 1 or 2 in the source
(the padding slot `pos[3]` is 0, which is also the default here). -/
def coord (p : Point) (axis : ℕ) : ℚ :=
  match axis with
  | 0 => p.x
  | 1 => p.y
  | 2 => p.z
  | _ => 0

/-- The constant `f32::MAX`, the miss/initial-`t` sentinel. -/
def FMAX : ℚ := (2 ^ 24 - 1) * 2 ^ 104

/-- The constant `f32::EPSILON` (machine epsilon of `f32`), used in the determinant
near-zero test of `intersects_triangle`. -/
def EPS32 : ℚ := 1 / 2 ^ 23

/-- The self-intersection guard `0.0000001` of the commit test. -/
def DIST_EPS : ℚ := 1 / 10000000

/-- The constant `u32::MAX`, the initial `ray.prim` sentinel used by the example. -/
def PRIM_NONE : ℕ := 4294967295

structure BVHNode where
  minx : ℚ
  miny : ℚ
  minz : ℚ
  maxx : ℚ
  maxy : ℚ
  maxz : ℚ
  left_first : ℤ
  count : ℤ
deriving DecidableEq, Repr

def BVHNode.zeroed : BVHNode := ⟨0, 0, 0, 0, 0, 0, 0, 0⟩

instance : Inhabited BVHNode := ⟨BVHNode.zeroed⟩

structure AABB where
  minx : ℚ
  miny : ℚ
  minz : ℚ
  maxx : ℚ
  maxy : ℚ
  maxz : ℚ
deriving DecidableEq, Repr

structure Ray where
  o : Point
  d : Point
  d_r : Point
  t : ℚ
  prim : ℕ
deriving DecidableEq, Repr

/-- The `BVH` struct: vertices, triangles (vertex id triples; the source's
fourth slot is always 0 and unused), the index permutation, the node pool and
the build-time centroid cache. -/
structure BVH where
  vertices : List Point
  triangles : List (ℕ × ℕ × ℕ)
  indices : List ℕ
  bvh_nodes : List BVHNode
  centroids : List Point
deriving DecidableEq, Repr

def getPt (l : List Point) (i : ℕ) : Point := l.getD i Point.zero

def getTri (l : List (ℕ × ℕ × ℕ)) (i : ℕ) : ℕ × ℕ × ℕ := l.getD i (0, 0, 0)

def getNode (l : List BVHNode) (i : ℕ) : BVHNode := l.getD i BVHNode.zeroed

/-- Embeds `BVH::intersects_triangle`.  Note: in the source the determinant
near-zero rejection is disabled — the body of
`if det < f32::EPSILON && det > -f32::EPSILON` is the commented-out
`//return;` — so the function falls through to `inv_det = 1.0 / det`
unconditionally, and that is what is embedded here. -/
def intersects_triangle (bvh : BVH) (ray : Ray) (triangle_index : ℕ) : Ray :=
  let tri := getTri bvh.triangles triangle_index
  let a := getPt bvh.vertices tri.1
  let b := getPt bvh.vertices tri.2.1
  let c := getPt bvh.vertices tri.2.2
  let a_to_b := psub b a
  let a_to_c := psub c a
  let u_vec := cross ray.d a_to_c
  let det := dot a_to_b u_vec
  let inv_det := 1 / det
  let a_to_origin := psub ray.o a
  let u := dot a_to_origin u_vec * inv_det
  if u < 0 ∨ u > 1 then ray
  else
    let v_vec := cross a_to_origin a_to_b
    let v := dot ray.d v_vec * inv_det
    if v < 0 ∨ u + v > 1 then ray
    else
      let dist := dot a_to_c v_vec * inv_det
      if DIST_EPS < dist ∧ dist < ray.t then
        { ray with t := dist, prim := triangle_index }
      else ray

/-- Embeds `BVH::intersect_aabb`.  The source takes the ray by `&mut` but never
writes to it; the embedding returns the slab-test scalar together with the
threaded-through ray. -/
def intersect_aabb (bvh : BVH) (ray : Ray) (bvh_node : ℕ) : ℚ × Ray :=
  let nd := getNode bvh.bvh_nodes bvh_node
  let vMax : Point := ⟨nd.maxx, nd.maxy, nd.maxz⟩
  let vMin : Point := ⟨nd.minx, nd.miny, nd.minz⟩
  let tMin := pmul (psub vMin ray.o) ray.d_r
  let tMax := pmul (psub vMax ray.o) ray.d_r
  let t1 := pmin tMin tMax
  let t2 := pmax tMin tMax
  let tNear := max (max t1.x t1.y) t1.z
  let tFar := min (min t2.x t2.y) t2.z
  (if tFar ≥ tNear ∧ tNear < ray.t ∧ tFar > 0 then tNear else FMAX, ray)

/-- Embeds `BVH::intersect`: brute-force linear scan over every triangle. -/
def intersect (bvh : BVH) (ray : Ray) : Ray :=
  (List.range bvh.triangles.length).foldl (fun r i => intersects_triangle bvh r i) ray

/-- Embeds `self.indices.swap(i, end)`.  Rust's `swap` panics out of bounds; the
claims that depend on this function carry in-bounds hypotheses under which
`List.set`/`List.getD` coincide with the panicking accesses. -/
def swapL (l : List ℕ) (i j : ℕ) : List ℕ :=
  (l.set i (l.getD j 0)).set j (l.getD i 0)

/-- The `while i < end` loop of `BVH::partition_shuffle`.  Each iteration
either advances `i` or retreats `e`, so the gap `e - i` shrinks by exactly
one per iteration; the caller passes the initial gap as the structural
iteration budget, making the recursion an exact image of the loop. -/
def shuffleGo (cent : List Point) (axis : ℕ) (pos : ℚ) :
    ℕ → List ℕ → ℕ → ℕ → List ℕ × ℕ
  | 0, idx, i, _ => (idx, i)
  | fuel+1, idx, i, e =>
    if i < e then
      if coord (getPt cent (idx.getD i 0)) axis < pos then
        shuffleGo cent axis pos fuel idx (i+1) e
      else
        shuffleGo cent axis pos fuel (swapL idx i e) i (e-1)
    else (idx, i)

/-- Embeds `BVH::partition_shuffle`: Hoare-style two-pointer partition of
`indices[start .. start+count)` keyed on `centroid[idx][axis] < pos`,
returning the state with the permuted index array and the pivot. -/
def partition_shuffle (bvh : BVH) (axis : ℕ) (pos : ℚ) (start count : ℕ) :
    BVH × ℕ :=
  let e := start + count - 1
  let r := shuffleGo bvh.centroids axis pos (e - start) bvh.indices start e
  ({ bvh with indices := r.1 }, r.2)

/-- Embeds `BVH::calculate_bounds`: fold min/max over the `amount` triangles (or
centroids) referenced by `indices[first .. first+amount)`, starting from the
inverted box (min initialised to `1e8`, max to `-1e8`). -/
def calculate_bounds (bvh : BVH) (first amount : ℕ) (centroids : Bool) : AABB :=
  let init : Point × Point :=
    (⟨-100000000, -100000000, -100000000⟩, ⟨100000000, 100000000, 100000000⟩)
  let r := (List.range amount).foldl
    (fun (acc : Point × Point) k =>
      let i := first + k
      if centroids then
        let vertex := getPt bvh.centroids (bvh.indices.getD i 0)
        (pmax acc.1 vertex, pmin acc.2 vertex)
      else
        let t := getTri bvh.triangles (bvh.indices.getD i 0)
        let v0 := getPt bvh.vertices t.1
        let v1 := getPt bvh.vertices t.2.1
        let v2 := getPt bvh.vertices t.2.2
        (pmax (pmax (pmax acc.1 v0) v1) v2, pmin (pmin (pmin acc.2 v0) v1) v2))
    init
  ⟨r.2.x, r.2.y, r.2.z, r.1.x, r.1.y, r.1.z⟩

def lerp (a b p : ℚ) : ℚ := a + (b - a) * p

def get_area (maxx maxy maxz minx miny minz : ℚ) : ℚ :=
  ((maxx - minx) * (maxy - miny)
    + (maxx - minx) * (maxz - minz)
    + (maxy - miny) * (maxz - minz)) * 2

/-- Candidate split position for `axis` and bin `b`; the `_` arm is the
source's unreachable `panic!` arm. -/
def binPos (aabb : AABB) (axis : ℕ) (b : ℕ) : ℚ :=
  match axis with
  | 0 => lerp aabb.minx aabb.maxx ((b : ℚ) / 8)
  | 1 => lerp aabb.miny aabb.maxy ((b : ℚ) / 8)
  | 2 => lerp aabb.minz aabb.maxz ((b : ℚ) / 8)
  | _ => 0

/-- The `(axis, b)` pairs scanned by `BVH::partition`: 3 axes, bins 1..7. -/
def axisBins : List (ℕ × ℕ) :=
  (List.range 3).flatMap (fun a => (List.range 7).map (fun b => (a, b + 1)))

/-- One candidate evaluation of `BVH::partition`'s axis/bin scan: shuffle
for the candidate position, compute the SAH cost of the two halves, and
replace the running optimum `(axis, pos, pivot, cost)` on strict cost
decrease. -/
def partitionStep (aabb : AABB) (start count : ℕ)
    (acc : BVH × ℕ × ℚ × ℕ × ℚ) (ab : ℕ × ℕ) : BVH × ℕ × ℚ × ℕ × ℚ :=
  let pos := binPos aabb ab.1 ab.2
  let sh := partition_shuffle acc.1 ab.1 pos start count
  let pivot := sh.2
  let bb1_count := pivot - start
  let bb2_count := count - bb1_count
  let bb1 := calculate_bounds sh.1 start bb1_count false
  let bb2 := calculate_bounds sh.1 pivot bb2_count false
  let half_area1 := get_area bb1.maxx bb1.maxy bb1.maxz bb1.minx bb1.miny bb1.minz
  let half_area2 := get_area bb2.maxx bb2.maxy bb2.maxz bb2.minx bb2.miny bb2.minz
  let cost := half_area1 * (bb1_count : ℚ) + half_area2 * (bb2_count : ℚ)
  if cost < acc.2.2.2.2 then (sh.1, ab.1, pos, pivot, cost)
  else (sh.1, acc.2)

/-- Embeds `BVH::partition`: binned-SAH split search.  Each candidate physically
re-shuffles the index range; the running optimum starts at
`(0, 0, 0, f32::MAX)`; a final shuffle re-establishes the winning
configuration. -/
def partition (bvh : BVH) (start count : ℕ) : BVH × ℕ :=
  let aabb := calculate_bounds bvh start count true
  let res := axisBins.foldl (partitionStep aabb start count) (bvh, 0, 0, 0, FMAX)
  let fin := partition_shuffle res.1 res.2.1 res.2.2.1 start count
  (fin.1, res.2.2.2.1)

/-- The `amount` argument of every `calculate_bounds` call made by one run of
`BVH::partition`, in call order: the centroid-bounds call over the whole
range, then `bb1_count, bb2_count` for each of the 21 candidates (the final
winning shuffle makes no bounds call).  The accumulator threads the shuffled
state exactly as `partition` does, so the recorded counts are the ones the
source passes. -/
def partitionBoundsAmounts (bvh : BVH) (start count : ℕ) : List ℕ :=
  let aabb := calculate_bounds bvh start count true
  let res := axisBins.foldl
    (fun (acc : BVH × List ℕ) ab =>
      let pos := binPos aabb ab.1 ab.2
      let sh := partition_shuffle acc.1 ab.1 pos start count
      let pivot := sh.2
      let bb1_count := pivot - start
      let bb2_count := count - bb1_count
      (sh.1, acc.2 ++ [bb1_count, bb2_count]))
    (bvh, [])
  count :: res.2

/-- In-bounds write to the node pool; `none` models the Rust indexing panic
on an out-of-range node id. -/
def setNode (bvh : BVH) (i : ℕ) (f : BVHNode → BVHNode) : Option BVH :=
  if i < bvh.bvh_nodes.length then
    some { bvh with bvh_nodes := bvh.bvh_nodes.set i (f (getNode bvh.bvh_nodes i)) }
  else none

/-- The field copy `BVH::set_bound` performs on a node. -/
def boundUpd (aabb : AABB) (n : BVHNode) : BVHNode :=
  { n with maxx := aabb.maxx, maxy := aabb.maxy, maxz := aabb.maxz,
           minx := aabb.minx, miny := aabb.miny, minz := aabb.minz }

/-- Embeds `BVH::set_bound`: copy the six AABB fields into a node. -/
def set_bound (bvh : BVH) (bvh_index : ℕ) (aabb : AABB) : Option BVH :=
  setNode bvh bvh_index (boundUpd aabb)

/-- Embeds `BVH::subdivide`, with an explicit recursion budget (`none` is reached
either when a node-pool write goes out of bounds — a Rust panic — or when
the budget runs out; the theorems below always supply enough budget for the
runs they describe). -/
def subdivide : ℕ → BVH → ℕ → ℕ → ℕ → ℕ → Option (BVH × ℕ)
  | 0, _, _, _, _, _ => none
  | fuel+1, bvh, current_bvh_index, start, pool_index, depth =>
    if current_bvh_index < bvh.bvh_nodes.length then
      let nd := getNode bvh.bvh_nodes current_bvh_index
      if nd.count ≤ 3 then do
        let bvh ← setNode bvh current_bvh_index
          (fun n => { n with left_first := (start : ℤ) })
        some (bvh, pool_index)
      else do
        let index := pool_index
        let bvh ← setNode bvh current_bvh_index
          (fun n => { n with left_first := (index : ℤ) })
        let pr := partition bvh start (getNode bvh.bvh_nodes current_bvh_index).count.toNat
        let pivot := pr.2
        let left_count := pivot - start
        let bvh ← setNode pr.1 index (fun n => { n with count := (left_count : ℤ) })
        let bvh ← set_bound bvh index (calculate_bounds bvh start left_count false)
        let right_count := (getNode bvh.bvh_nodes current_bvh_index).count - (left_count : ℤ)
        let bvh ← setNode bvh (index + 1) (fun n => { n with count := right_count })
        let bvh ← set_bound bvh (index + 1)
          (calculate_bounds bvh pivot right_count.toNat false)
        let r1 ← subdivide fuel bvh index start (index + 2) (depth + 1)
        let r2 ← subdivide fuel r1.1 (index + 1) pivot r1.2 (depth + 1)
        let bvh ← setNode r2.1 current_bvh_index (fun n => { n with count := 0 })
        some (bvh, r2.2)
    else none

/-- The builder state right before `build_bvh`'s first node write: the
index/pool initialisation performed by `BVH::construct` (indices `0..N`,
node pool of `2 * N` zeroed nodes) together with the centroid cache
`(v0 + v1 + v2) / 3` computed at the top of `build_bvh`. -/
def initState (vertices : List Point) (triangles : List (ℕ × ℕ × ℕ)) : BVH :=
  { vertices := vertices, triangles := triangles,
    indices := List.range triangles.length,
    bvh_nodes := List.replicate (2 * triangles.length) BVHNode.zeroed,
    centroids := triangles.map (fun t =>
      pdivs (padd (padd (getPt vertices t.1) (getPt vertices t.2.1))
        (getPt vertices t.2.2)) 3) }

/-- Embeds `BVH::build_bvh` (on the state prepared by `BVH::construct`):
seeds the root with `count = N` and `left_first = 0` plus its bounds,
subdivides from pool slot 2, then clears the centroids and truncates the
pool to the high-water mark. -/
def build_bvh (fuel : ℕ) (vertices : List Point)
    (triangles : List (ℕ × ℕ × ℕ)) : Option BVH :=
  let N := triangles.length
  let bvh : BVH := initState vertices triangles
  do
    let bvh ← setNode bvh 0 (fun n => { n with left_first := 0, count := (N : ℤ) })
    let bvh ← set_bound bvh 0 (calculate_bounds bvh 0 N false)
    let r ← subdivide fuel bvh 0 0 2 0
    some { r.1 with centroids := [], bvh_nodes := r.1.bvh_nodes.take r.2 }

/-- The root node of a completed build whose root is immediately a leaf
(`count <= 3`): the whole-mesh bounds with `left_first = 0` and
`count = N`. -/
def rootNodeSmall (vertices : List Point) (triangles : List (ℕ × ℕ × ℕ)) : BVHNode :=
  let ab := calculate_bounds (initState vertices triangles) 0 triangles.length false
  ⟨ab.minx, ab.miny, ab.minz, ab.maxx, ab.maxy, ab.maxz, 0, (triangles.length : ℤ)⟩

/-- The stale-entry pop loop of `BVH::fast_intersect`
(`while t >= ray.t` with `t` seeded to `f32::MAX`): keep popping while the
stored `t` is no better than the ray's current best; `none` is the
`break 'outer`. -/
def popLoop (rt : ℚ) : ℚ → ℕ → List (ℕ × ℚ) → Option (ℕ × List (ℕ × ℚ))
  | t0, ni, [] => if t0 ≥ rt then none else some (ni, [])
  | t0, ni, (n, t) :: rest =>
    if t0 ≥ rt then popLoop rt t n rest else some (ni, (n, t) :: rest)

/-- Outcome of one iteration of the `'outer` traversal loop: a Rust panic,
loop exit carrying the final ray, or the node/stack/ray state the next
iteration starts from. -/
inductive StepRes where
  | panic : StepRes
  | done : Ray → StepRes
  | next : ℕ → List (ℕ × ℚ) → Ray → StepRes
deriving DecidableEq, Repr

/-- One iteration of the `'outer` loop of `BVH::fast_intersect`.  The stack
is a list with its head as the top, capped at the source's 32 entries:
pushing onto a full stack is the out-of-bounds `stack[32]` write, a Rust
panic, and reading a node out of the pool's range is likewise a panic. -/
def fast_step (bvh : BVH) (ray : Ray) (node_index : ℕ) (stack : List (ℕ × ℚ)) :
    StepRes :=
  if node_index < bvh.bvh_nodes.length then
    let nd := getNode bvh.bvh_nodes node_index
    if nd.count > 0 then
      let ray := (List.range nd.count.toNat).foldl
        (fun r (i : ℕ) =>
          intersects_triangle bvh r (bvh.indices.getD (nd.left_first + (i : ℤ)).toNat 0))
        ray
      match stack with
      | [] => .done ray
      | _ =>
        match popLoop ray.t FMAX node_index stack with
        | none => .done ray
        | some (n, st) => .next n st ray
    else
      let child1 := nd.left_first.toNat
      let child2 := nd.left_first.toNat + 1
      if child2 < bvh.bvh_nodes.length then
        let d1 := (intersect_aabb bvh ray child1).1
        let d2 := (intersect_aabb bvh ray child2).1
        let sw : ℚ × ℚ × ℕ × ℕ :=
          if d1 > d2 then (d2, d1, child2, child1) else (d1, d2, child1, child2)
        if sw.1 = FMAX then
          match stack with
          | [] => .done ray
          | _ =>
            match popLoop ray.t FMAX node_index stack with
            | none => .done ray
            | some (n, st) => .next n st ray
        else
          if sw.2.1 ≠ FMAX then
            if stack.length < 32 then .next sw.2.2.1 ((sw.2.2.2, sw.2.1) :: stack) ray
            else .panic
          else .next sw.2.2.1 stack ray
      else .panic
  else .panic

/-- The `'outer` loop of `BVH::fast_intersect`: iterate `fast_step` until it
exits (or the budget runs out, `none` like a panic). -/
def fast_intersect_go : ℕ → BVH → Ray → ℕ → List (ℕ × ℚ) → Option Ray
  | 0, _, _, _, _ => none
  | fuel+1, bvh, ray, node_index, stack =>
    match fast_step bvh ray node_index stack with
    | .panic => none
    | .done r => some r
    | .next n st r => fast_intersect_go fuel bvh r n st

/-- Embeds `BVH::fast_intersect`: start at the root with an empty stack. -/
def fast_intersect (fuel : ℕ) (bvh : BVH) (ray : Ray) : Option Ray :=
  fast_intersect_go fuel bvh ray 0 []


/-- The Moller-Trumbore candidate of `intersects_triangle`: the guards and
arithmetic of the source up to (but not including) the `dist < ray.t`
comparison, which is the only part of the test that reads the ray's mutable
state.  `some dist` when the `u`/`v` bounds pass and `dist` clears the
epsilon; `none` when the source returns without touching the ray whatever
`ray.t` holds. -/
def triDist (bvh : BVH) (o d : Point) (triangle_index : ℕ) : Option ℚ :=
  let tri := getTri bvh.triangles triangle_index
  let a := getPt bvh.vertices tri.1
  let b := getPt bvh.vertices tri.2.1
  let c := getPt bvh.vertices tri.2.2
  let a_to_b := psub b a
  let a_to_c := psub c a
  let u_vec := cross d a_to_c
  let det := dot a_to_b u_vec
  let inv_det := 1 / det
  let a_to_origin := psub o a
  let u := dot a_to_origin u_vec * inv_det
  if u < 0 ∨ u > 1 then none
  else
    let v_vec := cross a_to_origin a_to_b
    let v := dot d v_vec * inv_det
    if v < 0 ∨ u + v > 1 then none
    else
      let dist := dot a_to_c v_vec * inv_det
      if DIST_EPS < dist then some dist else none

/-- One step of the scan's running minimum distance. -/
def stepT (bvh : BVH) (o d : Point) (t : ℚ) (i : ℕ) : ℚ :=
  match triDist bvh o d i with
  | some dc => min t dc
  | none => t

/-- Running minimum of the candidate distances over a list of triangle ids. -/
def foldT (bvh : BVH) (o d : Point) (l : List ℕ) (t : ℚ) : ℚ :=
  l.foldl (stepT bvh o d) t

/-- A point lies inside a node's stored axis-aligned box. -/
def ptInBox (nd : BVHNode) (p : Point) : Prop :=
  nd.minx ≤ p.x ∧ p.x ≤ nd.maxx ∧ nd.miny ≤ p.y ∧ p.y ≤ nd.maxy ∧
    nd.minz ≤ p.z ∧ p.z ≤ nd.maxz

instance (nd : BVHNode) (p : Point) : Decidable (ptInBox nd p) := by
  unfold ptInBox; exact inferInstance

/-- All three vertices of a triangle lie inside a node's stored box. -/
def triInBox (bvh : BVH) (nd : BVHNode) (ti : ℕ) : Prop :=
  ptInBox nd (getPt bvh.vertices (getTri bvh.triangles ti).1) ∧
  ptInBox nd (getPt bvh.vertices (getTri bvh.triangles ti).2.1) ∧
  ptInBox nd (getPt bvh.vertices (getTri bvh.triangles ti).2.2)

instance (bvh : BVH) (nd : BVHNode) (ti : ℕ) : Decidable (triInBox bvh nd ti) := by
  unfold triInBox; exact inferInstance

/-- The triangle ids held by index-array positions `[s, s + c)`. -/
def subIds (bvh : BVH) (s c : ℕ) : List ℕ :=
  (List.range c).map (fun k => bvh.indices.getD (s + k) 0)


/-- Well-formedness of the node tree rooted at `n` over index positions
`[s, s + c)`, to recursion depth `h`: the node is inside the pool, its box
contains all triangles of its range, a leaf (`count > 0`) records exactly
its range, and an internal node (`count == 0`, as `subdivide` marks parents)
has its two children at `left_first` and `left_first + 1` splitting the
range.  This is the shape a `subdivide` run leaves behind whenever every
partition pivot lands strictly inside its range. -/
def nodeOK : ℕ → BVH → ℕ → ℕ → ℕ → Prop
  | 0, _, _, _, _ => False
  | h + 1, bvh, n, s, c =>
    n < bvh.bvh_nodes.length ∧
    s + c ≤ bvh.indices.length ∧
    (∀ k ∈ List.range c, triInBox bvh (getNode bvh.bvh_nodes n) (bvh.indices.getD (s + k) 0)) ∧
    ((0 < (getNode bvh.bvh_nodes n).count ∧
        (getNode bvh.bvh_nodes n).left_first = (s : ℤ) ∧
        (getNode bvh.bvh_nodes n).count = (c : ℤ)) ∨
      (¬ 0 < (getNode bvh.bvh_nodes n).count ∧
        ∃ cl ∈ List.range (c + 1),
          nodeOK h bvh (getNode bvh.bvh_nodes n).left_first.toNat s cl ∧
          nodeOK h bvh ((getNode bvh.bvh_nodes n).left_first.toNat + 1) (s + cl) (c - cl)))

instance nodeOKDec : ∀ (h : ℕ) (bvh : BVH) (n s c : ℕ), Decidable (nodeOK h bvh n s c)
  | 0, bvh, n, s, c => by
    unfold nodeOK
    exact inferInstance
  | h + 1, bvh, n, s, c => by
    unfold nodeOK
    letI : ∀ (n' s' c' : ℕ), Decidable (nodeOK h bvh n' s' c') :=
      fun n' s' c' => nodeOKDec h bvh n' s' c'
    exact inferInstance

/-- What a live stack entry `(node, t)` promises: the node roots a
well-formed subtree over some index range, and `t` bounds every candidate
hit distance of that range from below. -/
def stackEntryOK (bvh : BVH) (o d : Point) (e : ℕ × ℚ) (ids : List ℕ) : Prop :=
  (∃ h s c, nodeOK h bvh e.1 s c ∧ ids = subIds bvh s c) ∧
  ∀ i ∈ ids, ∀ dc, triDist bvh o d i = some dc → e.2 ≤ dc

/-! Spec-side slab-test quantities, written from the specification's wording
(section 4.2): the per-axis entry distance is the smaller of the two slab
plane distances computed with the precomputed reciprocal direction, the exit
distance the larger; `tNear` is the maximum entry over the three axes and
`tFar` the minimum exit. -/

/-- Entry distance of one slab, from the spec's wording. -/
def slabEntry (lo hi o dr : ℚ) : ℚ := min ((lo - o) * dr) ((hi - o) * dr)

/-- Exit distance of one slab, from the spec's wording. -/
def slabExit (lo hi o dr : ℚ) : ℚ := max ((lo - o) * dr) ((hi - o) * dr)

/-- Maximum over axes of the per-axis slab entry distances. -/
def slabTNear (bvh : BVH) (ray : Ray) (n : ℕ) : ℚ :=
  let nd := getNode bvh.bvh_nodes n
  max (max (slabEntry nd.minx nd.maxx ray.o.x ray.d_r.x)
           (slabEntry nd.miny nd.maxy ray.o.y ray.d_r.y))
      (slabEntry nd.minz nd.maxz ray.o.z ray.d_r.z)

/-- Minimum over axes of the per-axis slab exit distances. -/
def slabTFar (bvh : BVH) (ray : Ray) (n : ℕ) : ℚ :=
  let nd := getNode bvh.bvh_nodes n
  min (min (slabExit nd.minx nd.maxx ray.o.x ray.d_r.x)
           (slabExit nd.miny nd.maxy ray.o.y ray.d_r.y))
      (slabExit nd.minz nd.maxz ray.o.z ray.d_r.z)

/-! Concrete inputs used by the counterexamples and witnesses below.  All
coordinates are small dyadic or integer values, so every arithmetic step of
the runs below is exact in `f32` as well and the rational traces coincide
with the single-precision ones. -/

/-- Vertex list of a degenerate mesh: a single point. -/
def exIdVerts : List Point := [⟨0, 0, 0⟩]

/-- Four identical degenerate triangles over that point: all centroids
coincide, so no candidate split ever makes progress. -/
def exIdTris : List (ℕ × ℕ × ℕ) := [(0, 0, 0), (0, 0, 0), (0, 0, 0), (0, 0, 0)]

/-- The builder state at the moment the root `partition(0, 4)` call happens
in `build_bvh exIdVerts exIdTris` (indices still `0..4`, centroids computed;
`partition` never reads the node pool, whose exact contents are therefore
irrelevant to the partition trace). -/
def exIdState : BVH :=
  { vertices := exIdVerts, triangles := exIdTris, indices := List.range 4,
    bvh_nodes := List.replicate 8 BVHNode.zeroed,
    centroids := exIdTris.map (fun t =>
      pdivs (padd (padd (getPt exIdVerts t.1) (getPt exIdVerts t.2.1))
        (getPt exIdVerts t.2.2)) 3) }

/-- A node pool that has not been built: two zeroed nodes (the root with
`count == 0` and `left_first == 0`), no geometry. -/
def exZeroedPool : BVH :=
  { vertices := [], triangles := [], indices := [],
    bvh_nodes := List.replicate 2 BVHNode.zeroed, centroids := [] }

/-- A ray whose slab test hits the zeroed (degenerate, point-sized) root
box at the origin. -/
def exRayThroughOrigin : Ray :=
  { o := ⟨-1, -1, -1⟩, d := ⟨1, 1, 1⟩, d_r := ⟨1, 1, 1⟩, t := FMAX, prim := PRIM_NONE }

/-- A ray whose slab test misses the zeroed root box (it points away from
the origin, so `tFar < 0`). -/
def exRayAwayFromOrigin : Ray :=
  { o := ⟨5, 5, 5⟩, d := ⟨1, 1, 1⟩, d_r := ⟨1, 1, 1⟩, t := FMAX, prim := PRIM_NONE }

/-- A one-entry index array whose only centroid lies at the origin. -/
def exOneCentroid : BVH :=
  { vertices := [], triangles := [], indices := [0],
    bvh_nodes := [], centroids := [⟨0, 0, 0⟩] }

/-- A tiny right triangle with legs of length `2 ^ (-13)`: its
Moller-Trumbore determinant against `exTinyRay` is `2 ^ (-26)`, far inside
the `±f32::EPSILON` band. -/
def exTinyTriBvh : BVH :=
  { vertices := [⟨0, 0, 0⟩, ⟨1/8192, 0, 0⟩, ⟨0, 1/8192, 0⟩],
    triangles := [(0, 1, 2)], indices := [0], bvh_nodes := [], centroids := [] }

/-- A ray shot straight down through the interior of the tiny triangle. -/
def exTinyRay : Ray :=
  { o := ⟨1/32768, 1/32768, 1⟩, d := ⟨0, 0, -1⟩, d_r := ⟨0, 0, -1⟩,
    t := FMAX, prim := PRIM_NONE }

/-- Vertices of a four-triangle mesh: two triangles near the origin and one
triangle at `x` in `[24, 27]` that is referenced twice (triangle ids 2 and 3
are identical). -/
def exDupVerts : List Point :=
  [⟨0, 0, 0⟩, ⟨3, 0, 0⟩, ⟨0, 3, 0⟩,
   ⟨0, 0, 3⟩, ⟨3, 0, 3⟩, ⟨0, 3, 3⟩,
   ⟨24, 0, 0⟩, ⟨27, 0, 0⟩, ⟨24, 3, 0⟩]

/-- The four triangles; ids 2 and 3 are duplicates of each other. -/
def exDupTris : List (ℕ × ℕ × ℕ) := [(0, 1, 2), (3, 4, 5), (6, 7, 8), (6, 7, 8)]

/-- A ray aimed at the duplicated triangle; both copies yield the same hit
distance, so the winner is decided purely by test order. -/
def exDupRay : Ray :=
  { o := ⟨49/2, 1/2, 4⟩, d := ⟨1/8, 1/8, -1⟩, d_r := ⟨8, 8, -1⟩,
    t := FMAX, prim := PRIM_NONE }

/-- A one-triangle mesh used by the witnesses. -/
def exUnitVerts : List Point := [⟨0, 0, 0⟩, ⟨3, 0, 0⟩, ⟨0, 3, 0⟩]

/-- Its single triangle. -/
def exUnitTris : List (ℕ × ℕ × ℕ) := [(0, 1, 2)]

/-- A ray through that triangle's interior. -/
def exUnitRay : Ray :=
  { o := ⟨1, 1, 2⟩, d := ⟨0, 0, -1⟩, d_r := ⟨0, 0, -1⟩, t := FMAX, prim := PRIM_NONE }

/-- The state a completed build leaves behind when the root is immediately a
leaf (at most 3 triangles): the truncated two-node pool and the identity
index permutation. -/
def smallBuilt (vs : List Point) (ts : List (ℕ × ℕ × ℕ)) : BVH :=
  { vertices := vs, triangles := ts, indices := List.range ts.length,
    bvh_nodes := [rootNodeSmall vs ts, BVHNode.zeroed], centroids := [] }

/-- Vertices of the empty-leaf mesh: all four triangles share the bounding
box `[0,24]^3`, so every SAH candidate costs the same and the first
candidate always wins. -/
def exELVerts : List Point :=
  [⟨0, 0, 24⟩, ⟨0, 24, 0⟩, ⟨24, 0, 0⟩, ⟨24, 24, 0⟩]

/-- The four triangles: centroid `x` is `8` for id 1 and `16` for the rest,
which drives the root's winning shuffle to pivot 0. -/
def exELTris : List (ℕ × ℕ × ℕ) := [(0, 3, 2), (0, 1, 2), (0, 3, 2), (0, 3, 2)]

/-- A ray through the mesh's bounding box that hits triangle 1 at `t = 8`. -/
def exELRay : Ray :=
  { o := ⟨7, 7, 16⟩, d := ⟨1/8, 1/8, -1⟩, d_r := ⟨8, 8, -1⟩, t := FMAX, prim := PRIM_NONE }

/-- A ray with no zero direction component through the one-triangle mesh. -/
def exC1Ray : Ray :=
  { o := ⟨0, 0, 2⟩, d := ⟨1, 1, -2⟩, d_r := ⟨1, 1, -1/2⟩, t := FMAX, prim := PRIM_NONE }

/-- The traversal's result on `exC1Ray`: hit at `t = 1` on triangle 0. -/
def exC1Out : Ray :=
  { o := ⟨0, 0, 2⟩, d := ⟨1, 1, -2⟩, d_r := ⟨1, 1, -1/2⟩, t := 1, prim := 0 }

/-! ## Theorems -/

/-- One call to `intersects_triangle` either leaves the ray untouched or
commits a hit: strictly smaller `t` that still clears the self-intersection
epsilon, `prim` set to the tested triangle, origin and direction unchanged. -/
theorem intersects_triangle_step (bvh : BVH) (r : Ray) (ti : ℕ) :
    intersects_triangle bvh r ti = r ∨
      ((intersects_triangle bvh r ti).t < r.t ∧
        DIST_EPS < (intersects_triangle bvh r ti).t ∧
        (intersects_triangle bvh r ti).prim = ti ∧
        (intersects_triangle bvh r ti).o = r.o ∧
        (intersects_triangle bvh r ti).d = r.d ∧
        (intersects_triangle bvh r ti).d_r = r.d_r) := by
  simp only [intersects_triangle]
  split_ifs with h1 h2 h3
  · exact Or.inl rfl
  · exact Or.inl rfl
  · exact Or.inr ⟨h3.2, h3.1, rfl, rfl, rfl, rfl⟩
  · exact Or.inl rfl

/-- Folding `intersects_triangle` over any list of triangle ids never
increases `t`, and a change of `prim` forces a strict decrease of `t`. -/
theorem intersects_triangle_fold (bvh : BVH) : ∀ (l : List ℕ) (r : Ray),
    (l.foldl (intersects_triangle bvh) r).t ≤ r.t ∧
      ((l.foldl (intersects_triangle bvh) r).prim ≠ r.prim →
        (l.foldl (intersects_triangle bvh) r).t < r.t)
  | [], r => ⟨le_refl _, fun h => absurd rfl h⟩
  | ti :: l, r => by
    have ih := intersects_triangle_fold bvh l (intersects_triangle bvh r ti)
    simp only [List.foldl_cons]
    rcases intersects_triangle_step bvh r ti with h | h
    · rw [h]
      exact intersects_triangle_fold bvh l r
    · exact ⟨le_of_lt (lt_of_le_of_lt ih.1 h.1),
        fun _ => lt_of_le_of_lt ih.1 h.1⟩

/-- C5: `intersects_triangle` overwrites `ray.t`/`ray.prim` only by
committing a hit distance that is beyond the small epsilon `0.0000001` and
strictly below the current `ray.t` (first conjunct: any call either returns
the ray unchanged or strictly decreases `t`, keeps `t` above the epsilon and
sets `prim` to the tested triangle); consequently over any sequence of
intersection tests `t` never increases and `prim` changes only if `t`
strictly decreased (remaining conjuncts). -/
theorem c5_commit_policy (bvh : BVH) (r : Ray) (ti : ℕ) (l : List ℕ) :
    (intersects_triangle bvh r ti = r ∨
      ((intersects_triangle bvh r ti).t < r.t ∧
        DIST_EPS < (intersects_triangle bvh r ti).t ∧
        (intersects_triangle bvh r ti).prim = ti)) ∧
    (l.foldl (intersects_triangle bvh) r).t ≤ r.t ∧
    ((l.foldl (intersects_triangle bvh) r).prim ≠ r.prim →
      (l.foldl (intersects_triangle bvh) r).t < r.t) := by
  refine ⟨?_, (intersects_triangle_fold bvh l r).1, (intersects_triangle_fold bvh l r).2⟩
  rcases intersects_triangle_step bvh r ti with h | h
  · exact Or.inl h
  · exact Or.inr ⟨h.1, h.2.1, h.2.2.1⟩

/-- C6: `intersect_aabb` returns `tNear` — the maximum over the three axes
of the per-axis slab entry distances, computed with the precomputed
reciprocal direction — exactly when `tFar >= tNear` and `tNear < ray.t` and
`tFar > 0` (with `tFar` the minimum of the per-axis exit distances), and the
`f32::MAX` miss sentinel in every other case. -/
theorem c6_slab_test (bvh : BVH) (ray : Ray) (n : ℕ) :
    (intersect_aabb bvh ray n).1 =
      if slabTFar bvh ray n ≥ slabTNear bvh ray n ∧ slabTNear bvh ray n < ray.t ∧
          slabTFar bvh ray n > 0
      then slabTNear bvh ray n else FMAX := rfl

/-- C10: `intersect_aabb` never writes through the `&mut` ray — the ray it
threads back is the ray it was given, every field included; during traversal
only `intersects_triangle` mutates the ray. -/
theorem c10_intersect_aabb_ray_frame (bvh : BVH) (ray : Ray) (n : ℕ) :
    (intersect_aabb bvh ray n).2 = ray := rfl

unseal Rat.add Rat.mul Rat.sub Rat.inv in
set_option maxRecDepth 1000000 in
/-- C1 counterexample, two independent failure modes.  (1) On the
four-triangle mesh `exDupTris` — whose build completes — the traversal and
the scan disagree on the duplicated triangle: the scan commits `prim = 2`
(first in triangle order), the traversal visits the leaf in permuted index
order `[3, 2]` and commits `prim = 3`, at the same hit distance `t = 4`.
(2) On `exELTris` the build also completes, but the root's winning SAH
candidate puts zero triangles left of its pivot, leaving an empty leaf
(`count = 0`, `left_first = 0`) in pool slot 2; the traversal reads that
node as an internal node whose "children" are nodes 0 and 1, so a ray that
hits the scene re-enters the root forever and overflows the 32-entry stack
(`none`, the Rust panic at `stack[32]`), while the scan returns a genuine
hit at `t = 8`. -/
theorem c1_counterexample :
    ((build_bvh 100 exDupVerts exDupTris).bind (fun b => fast_intersect 50 b exDupRay)
      ≠ (build_bvh 100 exDupVerts exDupTris).map (fun b => intersect b exDupRay)) ∧
    (build_bvh 20 exELVerts exELTris).map (fun b => intersect b exELRay) ≠ none ∧
    (build_bvh 20 exELVerts exELTris).map (fun b => (intersect b exELRay).t) = some 8 ∧
    (build_bvh 20 exELVerts exELTris).bind (fun b => fast_intersect 80 b exELRay) = none ∧
    (build_bvh 20 exELVerts exELTris).map
        (fun b => ((getNode b.bvh_nodes 2).count, (getNode b.bvh_nodes 2).left_first))
      = some (0, 0) := by
  refine ⟨by decide, by decide, by decide, by decide, by decide⟩

unseal Rat.add Rat.mul Rat.sub Rat.inv in
set_option maxRecDepth 1000000 in
/-- C2 counterexample: on four identical (degenerate) triangles every
candidate split returns `pivot = start`, the recursion never reaches the
leaf condition along the right spine, and the builder dies with an
out-of-range node-pool write (`none` models the Rust panic at
`bvh_nodes[8]` with a pool of `2 * 4 = 8` nodes). -/
theorem c2_counterexample : build_bvh 100 exIdVerts exIdTris = none := by decide

unseal Rat.add Rat.mul Rat.sub Rat.inv in
set_option maxRecDepth 100000 in
/-- C3 counterexample: with one index entry whose centroid coordinate `0` is
strictly below `pos = 1`, `partition_shuffle 0 1 0 1` returns `pivot = 0`,
so the entry at position `0` lies in `[pivot, start + count)` yet its
centroid coordinate is `< pos`, contradicting the claimed `>= pos` on the
right part: the loop `while i < end` never examines the element at the
final pivot position. -/
theorem c3_counterexample :
    (partition_shuffle exOneCentroid 0 1 0 1).2 = 0 ∧
      coord (getPt exOneCentroid.centroids
        ((partition_shuffle exOneCentroid 0 1 0 1).1.indices.getD 0 0)) 0 < 1 := by
  decide

unseal Rat.add Rat.mul Rat.sub Rat.inv in
set_option maxRecDepth 100000 in
/-- C4: the determinant of `exTinyRay` against the tiny triangle is
`2 ^ (-26)`, strictly inside the `±f32::EPSILON` band, yet
`intersects_triangle` still commits the hit (`t` drops from the sentinel to
`1`, `prim` to `0`) instead of rejecting: the `return` of the near-zero
determinant test is commented out in the source, contradicting the
function's own comments and the spec. -/
theorem c4_det_near_zero_still_commits :
    dot (psub (getPt exTinyTriBvh.vertices 1) (getPt exTinyTriBvh.vertices 0))
        (cross exTinyRay.d
          (psub (getPt exTinyTriBvh.vertices 2) (getPt exTinyTriBvh.vertices 0)))
      = 1 / 67108864 ∧
    (1 : ℚ) / 67108864 < EPS32 ∧ -EPS32 < (1 : ℚ) / 67108864 ∧
    intersects_triangle exTinyTriBvh exTinyRay 0 ≠ exTinyRay ∧
    (intersects_triangle exTinyTriBvh exTinyRay 0).t = 1 ∧
    (intersects_triangle exTinyTriBvh exTinyRay 0).prim = 0 := by decide

unseal Rat.add Rat.mul Rat.sub Rat.inv in
set_option maxRecDepth 100000 in
/-- C8 counterexample: in the root `partition(0, 4)` call of the build over
`exIdTris`, the candidate-evaluation calls to `calculate_bounds` include
calls with `amount = 0` (every candidate pivot equals `start`, so each
`bb1_count` is `0`): the amount trace of that `partition` run contains `0`. -/
theorem c8_counterexample : (0 : ℕ) ∈ partitionBoundsAmounts exIdState 0 4 := by
  decide

unseal Rat.add Rat.mul Rat.sub Rat.inv in
set_option maxRecDepth 1000000 in
/-- C9 counterexample: against an unbuilt (zeroed) node pool, a ray whose
slab test hits the degenerate zero-sized root box does not report "no hit":
the root has `count == 0` and is therefore treated as an internal node with
both children equal to the root's own box, so the traversal keeps pushing
until the 33rd push overflows the 32-entry stack — the Rust panic modelled
by `none`. -/
theorem c9_counterexample :
    fast_intersect 40 exZeroedPool exRayThroughOrigin = none := by decide

/-- C8 (amended): a `calculate_bounds` call with `amount = 0` does occur and
returns the inverted initial box (`min` fields at `1e8`, `max` fields at
`-1e8`) rather than failing. -/
theorem c8_zero_amount_inverted (bvh : BVH) (first : ℕ) (c : Bool) :
    calculate_bounds bvh first 0 c =
      ⟨100000000, 100000000, 100000000, -100000000, -100000000, -100000000⟩ := rfl

/-! Auxiliary facts about `List.set`, `List.getD` and `swapL`. -/

theorem getD_set_self {α : Type} (l : List α) (i : ℕ) (a d : α) (h : i < l.length) :
    (l.set i a).getD i d = a := by
  simp [List.getD_eq_getElem?_getD, List.getElem?_set_self', List.getElem?_eq_getElem h]

theorem getD_set_other {α : Type} (l : List α) {i j : ℕ} (a d : α) (h : i ≠ j) :
    (l.set i a).getD j d = l.getD j d := by
  simp [List.getD_eq_getElem?_getD, List.getElem?_set_ne h]

theorem set_getD_self : ∀ (l : List ℕ) (i : ℕ), i < l.length → l.set i (l.getD i 0) = l
  | [], i, h => absurd h (by simp)
  | x :: xs, 0, _ => rfl
  | x :: xs, i + 1, h => by
    simpa [List.set] using set_getD_self xs i (Nat.lt_of_succ_lt_succ h)

theorem swapL_length (l : List ℕ) (i j : ℕ) : (swapL l i j).length = l.length := by
  simp [swapL]

theorem swapL_getD_fst (l : List ℕ) {i j : ℕ} (hi : i < l.length) (hij : i ≠ j) :
    (swapL l i j).getD i 0 = l.getD j 0 := by
  unfold swapL
  rw [getD_set_other _ _ _ (Ne.symm hij), getD_set_self _ _ _ _ hi]

theorem swapL_getD_snd (l : List ℕ) {i j : ℕ} (hj : j < l.length) :
    (swapL l i j).getD j 0 = l.getD i 0 := by
  unfold swapL
  rw [getD_set_self]
  simpa using hj

theorem swapL_getD_other (l : List ℕ) {i j k : ℕ} (hki : i ≠ k) (hkj : j ≠ k) :
    (swapL l i j).getD k 0 = l.getD k 0 := by
  unfold swapL
  rw [getD_set_other _ _ _ hkj, getD_set_other _ _ _ hki]

/-- Putting the element read at position `k` in front of `set k x` is a
permutation of putting `x` in front of the original list. -/
theorem consGetD_set_perm :
    ∀ (xs : List ℕ) (k x : ℕ), k < xs.length →
      ((xs.getD k 0) :: xs.set k x).Perm (x :: xs)
  | [], k, x, h => absurd h (by simp)
  | y :: ys, 0, x, _ => List.Perm.swap x y ys
  | y :: ys, k + 1, x, h => by
    have ih := consGetD_set_perm ys k x (Nat.lt_of_succ_lt_succ h)
    have hres : ((y :: ys).getD (k + 1) 0 :: (y :: ys).set (k + 1) x)
        = ys.getD k 0 :: y :: ys.set k x := rfl
    rw [hres]
    exact (List.Perm.swap _ _ _).trans ((ih.cons y).trans (List.Perm.swap _ _ _))

theorem swapL_perm_lt :
    ∀ (l : List ℕ) (i j : ℕ), i < j → j < l.length → (swapL l i j).Perm l
  | [], _, j, _, hj => absurd hj (by simp)
  | x :: xs, 0, j + 1, _, hj => by
    have hjl : j < xs.length := Nat.lt_of_succ_lt_succ hj
    have : swapL (x :: xs) 0 (j + 1) = xs.getD j 0 :: xs.set j x := by
      simp [swapL, List.set, List.getD_cons_succ]
    rw [this]
    exact consGetD_set_perm xs j x hjl
  | x :: xs, i + 1, j + 1, hij, hj => by
    have ih := swapL_perm_lt xs i j (Nat.lt_of_succ_lt_succ hij) (Nat.lt_of_succ_lt_succ hj)
    have : swapL (x :: xs) (i + 1) (j + 1) = x :: swapL xs i j := by
      simp [swapL, List.set, List.getD_cons_succ]
    rw [this]
    exact ih.cons x

/-- An in-bounds `swapL` permutes the list. -/
theorem swapL_perm (l : List ℕ) (i j : ℕ) (hi : i < l.length) (hj : j < l.length) :
    (swapL l i j).Perm l := by
  rcases lt_trichotomy i j with h | h | h
  · exact swapL_perm_lt l i j h hj
  · subst h
    unfold swapL
    rw [List.set_set, set_getD_self l i hi]
  · have : swapL l i j = swapL l j i := by
      unfold swapL
      exact List.set_comm _ _ _ (Ne.symm (Nat.ne_of_lt h))
    rw [this]
    exact swapL_perm_lt l j i h hi

/-- Full postcondition of the `partition_shuffle` loop, by induction on the
iteration budget: the pivot stays inside `[i, e]`, entries below `i` and
above `e` are untouched, every entry in `[i, pivot)` satisfies the predicate,
every entry in `(pivot, e]` fails it — the entry at the pivot itself is
never examined — and the array is a permutation of the input. -/
theorem shuffleGo_post (cent : List Point) (axis : ℕ) (pos : ℚ) :
    ∀ (fuel : ℕ) (idx : List ℕ) (i e : ℕ), i + fuel = e → e < idx.length →
      i ≤ (shuffleGo cent axis pos fuel idx i e).2 ∧
      (shuffleGo cent axis pos fuel idx i e).2 ≤ e ∧
      (shuffleGo cent axis pos fuel idx i e).1.length = idx.length ∧
      (∀ k, k < i → (shuffleGo cent axis pos fuel idx i e).1.getD k 0 = idx.getD k 0) ∧
      (∀ k, e < k → (shuffleGo cent axis pos fuel idx i e).1.getD k 0 = idx.getD k 0) ∧
      (∀ k, i ≤ k → k < (shuffleGo cent axis pos fuel idx i e).2 →
        coord (getPt cent ((shuffleGo cent axis pos fuel idx i e).1.getD k 0)) axis < pos) ∧
      (∀ k, (shuffleGo cent axis pos fuel idx i e).2 < k → k ≤ e →
        ¬ coord (getPt cent ((shuffleGo cent axis pos fuel idx i e).1.getD k 0)) axis < pos) ∧
      (shuffleGo cent axis pos fuel idx i e).1.Perm idx := by
  intro fuel
  induction fuel with
  | zero =>
    intro idx i e hie _
    have hres : shuffleGo cent axis pos 0 idx i e = (idx, i) := rfl
    rw [hres]
    exact ⟨le_refl i, by omega, rfl, fun k _ => rfl, fun k _ => rfl,
      fun k hk1 hk2 => absurd hk2 (by omega),
      fun k hk1 hk2 => absurd hk1 (by omega), List.Perm.refl idx⟩
  | succ fuel ih =>
    intro idx i e hie hlen
    have hilt : i < e := by omega
    simp only [shuffleGo, if_pos hilt]
    by_cases hpred : coord (getPt cent (idx.getD i 0)) axis < pos
    · rw [if_pos hpred]
      obtain ⟨ha, hb, hc, hd, he, hf, hg, hp⟩ :=
        ih idx (i + 1) e (by omega) hlen
      refine ⟨by omega, hb, hc, ?_, he, ?_, hg, hp⟩
      · intro k hk; exact hd k (by omega)
      · intro k hk1 hk2
        rcases Nat.eq_or_lt_of_le hk1 with hk | hk
        · subst hk
          rw [hd i (by omega)]
          exact hpred
        · exact hf k hk hk2
    · rw [if_neg hpred]
      have hi' : i < idx.length := lt_trans hilt hlen
      have hlen' : e - 1 < (swapL idx i e).length := by rw [swapL_length]; omega
      obtain ⟨ha, hb, hc, hd, he, hf, hg, hp⟩ :=
        ih (swapL idx i e) i (e - 1) (by omega) hlen'
      have hne : i ≠ e := Nat.ne_of_lt hilt
      refine ⟨ha, by omega, by rw [hc, swapL_length], ?_, ?_, hf, ?_, ?_⟩
      · intro k hk
        rw [hd k hk, swapL_getD_other idx (by omega) (by omega)]
      · intro k hk
        rw [he k (by omega), swapL_getD_other idx (by omega) (by omega)]
      · intro k hk1 hk2
        rcases Nat.eq_or_lt_of_le hk2 with hk | hk
        · subst hk
          rw [he k (by omega), swapL_getD_snd idx (by omega)]
          exact hpred
        · exact hg k hk1 (by omega)
      · exact hp.trans (swapL_perm idx i e hi' hlen)

/-- C3 (amended): after `partition_shuffle(axis, pos, start, count)` with
`count >= 1` and the range inside the index array, the pivot lies in
`[start, start + count)`, every entry strictly below the pivot has centroid
coordinate `< pos` on `axis`, and every entry strictly above the pivot (up
to `start + count`) has centroid coordinate `>= pos` — the entry at the
pivot position itself is never examined by the loop and may fall on either
side, as the counterexample shows. -/
theorem c3_partition_shuffle_post (bvh : BVH) (axis : ℕ) (pos : ℚ) (start count : ℕ)
    (h1 : 1 ≤ count) (h2 : start + count ≤ bvh.indices.length) :
    start ≤ (partition_shuffle bvh axis pos start count).2 ∧
    (partition_shuffle bvh axis pos start count).2 < start + count ∧
    (∀ k, start ≤ k → k < (partition_shuffle bvh axis pos start count).2 →
      coord (getPt bvh.centroids
        ((partition_shuffle bvh axis pos start count).1.indices.getD k 0)) axis < pos) ∧
    (∀ k, (partition_shuffle bvh axis pos start count).2 < k → k < start + count →
      ¬ coord (getPt bvh.centroids
        ((partition_shuffle bvh axis pos start count).1.indices.getD k 0)) axis < pos) := by
  have hpost := shuffleGo_post bvh.centroids axis pos (start + count - 1 - start)
    bvh.indices start (start + count - 1) (by omega) (by omega)
  obtain ⟨ha, hb, _, _, _, hf, hg, _⟩ := hpost
  simp only [partition_shuffle]
  exact ⟨ha, by omega, fun k hk1 hk2 => hf k hk1 hk2, fun k hk1 hk2 => hg k hk1 (by omega)⟩

/-- Witness for the amended C3 theorem at a concrete one-entry range. -/
theorem c3_partition_shuffle_post_witness :
    0 ≤ (partition_shuffle exOneCentroid 0 1 0 1).2 ∧
      (partition_shuffle exOneCentroid 0 1 0 1).2 < 0 + 1 :=
  ⟨(c3_partition_shuffle_post exOneCentroid 0 1 0 1 (by decide) (by decide)).1,
   (c3_partition_shuffle_post exOneCentroid 0 1 0 1 (by decide) (by decide)).2.1⟩

/-- A `calculate_bounds` call only reads vertices, triangles, indices and
centroids, never the node pool. -/
theorem calculate_bounds_scrub (b : BVH) (first amount : ℕ) (c : Bool) :
    calculate_bounds b first amount c
      = calculate_bounds ⟨b.vertices, b.triangles, b.indices, [], b.centroids⟩
          first amount c := rfl

/-- A build over at most 3 triangles completes immediately: the root's
`count <= 3` check fires before any partitioning, so `subdivide` makes the
root a leaf and the pool truncates to two nodes. -/
theorem build_small (f : ℕ) (vs : List Point) (ts : List (ℕ × ℕ × ℕ))
    (h1 : 1 ≤ ts.length) (h3 : ts.length ≤ 3) :
    build_bvh (f + 1) vs ts = some (smallBuilt vs ts) := by
  match ts, h1, h3 with
  | [a], _, _ =>
    simp [build_bvh, initState, setNode, set_bound, boundUpd, subdivide, getNode,
      rootNodeSmall, smallBuilt, List.replicate, Option.bind, calculate_bounds_scrub]
  | [a, b], _, _ =>
    simp [build_bvh, initState, setNode, set_bound, boundUpd, subdivide, getNode,
      rootNodeSmall, smallBuilt, List.replicate, Option.bind, calculate_bounds_scrub]
  | [a, b, c], _, _ =>
    simp [build_bvh, initState, setNode, set_bound, boundUpd, subdivide, getNode,
      rootNodeSmall, smallBuilt, List.replicate, Option.bind, calculate_bounds_scrub]

/-- When the root is a leaf (`count > 0`), the first traversal iteration
tests each of its triangles in index order and exits. -/
theorem fast_step_root_leaf (bvh : BVH) (r : Ray)
    (hlen : 0 < bvh.bvh_nodes.length)
    (hcount : 0 < (getNode bvh.bvh_nodes 0).count) :
    fast_step bvh r 0 []
      = .done ((List.range (getNode bvh.bvh_nodes 0).count.toNat).foldl
          (fun r (i : ℕ) => intersects_triangle bvh r
            (bvh.indices.getD ((getNode bvh.bvh_nodes 0).left_first + (i : ℤ)).toNat 0)) r) := by
  unfold fast_step
  rw [if_pos hlen, if_pos hcount]

/-- If one traversal step exits with a ray, the fuelled loop returns it. -/
theorem go_succ_done (g : ℕ) (bvh : BVH) (r r' : Ray) (ni : ℕ) (st : List (ℕ × ℚ))
    (h : fast_step bvh r ni st = .done r') :
    fast_intersect_go (g + 1) bvh r ni st = some r' := by
  unfold fast_intersect_go
  rw [h]

/-- Fold congruence: folding functions that agree on the list's members
agree. -/
theorem foldl_congr_on {α β : Type} : ∀ (l : List α) (f g : β → α → β) (b : β),
    (∀ a ∈ l, ∀ acc, f acc a = g acc a) → l.foldl f b = l.foldl g b
  | [], _, _, _, _ => rfl
  | x :: xs, f, g, b, h => by
    simp only [List.foldl_cons]
    rw [h x (List.mem_cons_self x xs) b]
    exact foldl_congr_on xs f g _ fun a ha acc => h a (List.mem_cons_of_mem x ha) acc

theorem getD_range {n i : ℕ} (h : i < n) : (List.range n).getD i 0 = i := by
  simp [List.getD_eq_getElem?_getD, List.getElem?_range h]

/-- C2 (amended): `build_bvh` does terminate (with a completed tree) for
every non-empty triangle list of at most 3 triangles, where the leaf
stopping condition `count <= 3` fires at the root before any partitioning;
for larger inputs termination is not guaranteed, as the counterexample with
four identical triangles shows. -/
theorem c2_leaf_threshold_terminates (vs : List Point) (ts : List (ℕ × ℕ × ℕ))
    (fuel : ℕ) (h1 : 1 ≤ ts.length) (h3 : ts.length ≤ 3) (hf : 1 ≤ fuel) :
    (build_bvh fuel vs ts).isSome = true := by
  obtain ⟨f, rfl⟩ : ∃ f, fuel = f + 1 := ⟨fuel - 1, by omega⟩
  rw [build_small f vs ts h1 h3]
  rfl

/-- Witness for the amended C2 theorem on the one-triangle mesh. -/
theorem c2_leaf_threshold_terminates_witness :
    (build_bvh 1 exUnitVerts exUnitTris).isSome = true :=
  c2_leaf_threshold_terminates exUnitVerts exUnitTris 1 (by decide) (by decide) (by decide)

/-- An internal-node iteration on an empty stack whose two child slab tests
both return the miss sentinel exits the loop with the ray untouched. -/
theorem fast_step_internal_miss (bvh : BVH) (r : Ray) (ni : ℕ)
    (hlen : ni < bvh.bvh_nodes.length)
    (hcount : ¬ (getNode bvh.bvh_nodes ni).count > 0)
    (hch : (getNode bvh.bvh_nodes ni).left_first.toNat + 1 < bvh.bvh_nodes.length)
    (h1 : (intersect_aabb bvh r (getNode bvh.bvh_nodes ni).left_first.toNat).1 = FMAX)
    (h2 : (intersect_aabb bvh r ((getNode bvh.bvh_nodes ni).left_first.toNat + 1)).1 = FMAX) :
    fast_step bvh r ni [] = .done r := by
  unfold fast_step
  rw [if_pos hlen, if_neg hcount, if_pos hch, h1, h2]
  dsimp only
  rw [if_neg (lt_irrefl FMAX), if_pos rfl]

/-- C9 (amended): against the unbuilt zeroed pool, every ray whose slab test
misses the degenerate zero-sized root box terminates immediately with the
ray unchanged — no hit is reported and no intersection test runs; rays that
hit that box instead descend forever into node 0 and overflow the traversal
stack, as the counterexample shows (a zeroed node with `count == 0` is an
internal node to the traversal, not an empty leaf). -/
theorem c9_unbuilt_pool_miss_no_hit (r : Ray) (fuel : ℕ) (hf : 1 ≤ fuel)
    (hmiss : (intersect_aabb exZeroedPool r 0).1 = FMAX) :
    fast_intersect fuel exZeroedPool r = some r := by
  obtain ⟨g, rfl⟩ : ∃ g, fuel = g + 1 := ⟨fuel - 1, by omega⟩
  have h01 : intersect_aabb exZeroedPool r 1 = intersect_aabb exZeroedPool r 0 := rfl
  refine go_succ_done g exZeroedPool r r 0 [] ?_
  refine fast_step_internal_miss exZeroedPool r 0 (by decide) (by decide) (by decide) ?_ ?_
  · exact hmiss
  · show (intersect_aabb exZeroedPool r (0 + 1)).1 = FMAX
    rw [show (0 + 1 : ℕ) = 1 from rfl, h01]
    exact hmiss

unseal Rat.add Rat.mul Rat.sub Rat.inv in
set_option maxRecDepth 100000 in
/-- Witness for the amended C9 theorem: a concrete ray pointing away from
the origin misses the zeroed box and comes back unchanged. -/
theorem c9_unbuilt_pool_miss_no_hit_witness :
    fast_intersect 1 exZeroedPool exRayAwayFromOrigin = some exRayAwayFromOrigin :=
  c9_unbuilt_pool_miss_no_hit exRayAwayFromOrigin 1 (by decide) (by decide)


theorem partition_shuffle_inv (bvh : BVH) (axis : ℕ) (pos : ℚ) (start count : ℕ)
    (h1 : 1 ≤ count) (h2 : start + count ≤ bvh.indices.length) :
    (partition_shuffle bvh axis pos start count).1.indices.Perm bvh.indices ∧
    (partition_shuffle bvh axis pos start count).1.vertices = bvh.vertices ∧
    (partition_shuffle bvh axis pos start count).1.triangles = bvh.triangles ∧
    (partition_shuffle bvh axis pos start count).1.centroids = bvh.centroids ∧
    (partition_shuffle bvh axis pos start count).1.bvh_nodes = bvh.bvh_nodes ∧
    start ≤ (partition_shuffle bvh axis pos start count).2 ∧
    (partition_shuffle bvh axis pos start count).2 < start + count := by
  have hpost := shuffleGo_post bvh.centroids axis pos (start + count - 1 - start)
    bvh.indices start (start + count - 1) (by omega) (by omega)
  obtain ⟨ha, hb, _, _, _, _, _, hp⟩ := hpost
  have heq2 : (partition_shuffle bvh axis pos start count).2
      = (shuffleGo bvh.centroids axis pos (start + count - 1 - start)
          bvh.indices start (start + count - 1)).2 := rfl
  refine ⟨hp, rfl, rfl, rfl, rfl, ?_, ?_⟩
  · rw [heq2]; exact ha
  · rw [heq2]; omega

theorem partitionFold_inv (aabb : AABB) (start count : ℕ) (h1 : 1 ≤ count) :
    ∀ (l : List (ℕ × ℕ)) (acc : BVH × ℕ × ℚ × ℕ × ℚ),
      start + count ≤ acc.1.indices.length →
      (acc.2.2.2.1 = 0 ∨ (start ≤ acc.2.2.2.1 ∧ acc.2.2.2.1 < start + count)) →
      (l.foldl (partitionStep aabb start count) acc).1.indices.Perm acc.1.indices ∧
      (l.foldl (partitionStep aabb start count) acc).1.vertices = acc.1.vertices ∧
      (l.foldl (partitionStep aabb start count) acc).1.triangles = acc.1.triangles ∧
      (l.foldl (partitionStep aabb start count) acc).1.centroids = acc.1.centroids ∧
      (l.foldl (partitionStep aabb start count) acc).1.bvh_nodes = acc.1.bvh_nodes ∧
      ((l.foldl (partitionStep aabb start count) acc).2.2.2.1 = 0 ∨
        (start ≤ (l.foldl (partitionStep aabb start count) acc).2.2.2.1 ∧
          (l.foldl (partitionStep aabb start count) acc).2.2.2.1 < start + count))
  | [], acc, _, hpiv =>
    ⟨List.Perm.refl _, rfl, rfl, rfl, rfl, hpiv⟩
  | ab :: l, acc, hlen, hpiv => by
    simp only [List.foldl_cons]
    have hsh := partition_shuffle_inv acc.1 ab.1 (binPos aabb ab.1 ab.2) start count h1 hlen
    obtain ⟨shp, shv, sht, shc, shn, shlo, shhi⟩ := hsh
    have hstep : (partitionStep aabb start count acc ab).1
        = (partition_shuffle acc.1 ab.1 (binPos aabb ab.1 ab.2) start count).1 ∧
        ((partitionStep aabb start count acc ab).2.2.2.1
            = (partition_shuffle acc.1 ab.1 (binPos aabb ab.1 ab.2) start count).2 ∨
          (partitionStep aabb start count acc ab).2.2.2.1 = acc.2.2.2.1) := by
      unfold partitionStep
      dsimp only
      split
      · exact ⟨rfl, Or.inl rfl⟩
      · exact ⟨rfl, Or.inr rfl⟩
    have hlen' : start + count ≤ (partitionStep aabb start count acc ab).1.indices.length := by
      rw [hstep.1, shp.length_eq]
      exact hlen
    have hpiv' : (partitionStep aabb start count acc ab).2.2.2.1 = 0 ∨
        (start ≤ (partitionStep aabb start count acc ab).2.2.2.1 ∧
          (partitionStep aabb start count acc ab).2.2.2.1 < start + count) := by
      rcases hstep.2 with h | h
      · rw [h]; exact Or.inr ⟨shlo, shhi⟩
      · rw [h]; exact hpiv
    obtain ⟨ip, iv, it, ic, inn, ipiv⟩ := partitionFold_inv aabb start count h1 l
      (partitionStep aabb start count acc ab) hlen' hpiv'
    refine ⟨?_, ?_, ?_, ?_, ?_, ipiv⟩
    · exact ip.trans (by rw [hstep.1]; exact shp)
    · rw [iv, hstep.1, shv]
    · rw [it, hstep.1, sht]
    · rw [ic, hstep.1, shc]
    · rw [inn, hstep.1, shn]

theorem partition_inv (bvh : BVH) (start count : ℕ)
    (h1 : 1 ≤ count) (h2 : start + count ≤ bvh.indices.length) :
    (partition bvh start count).1.indices.Perm bvh.indices ∧
    (partition bvh start count).1.vertices = bvh.vertices ∧
    (partition bvh start count).1.triangles = bvh.triangles ∧
    (partition bvh start count).1.centroids = bvh.centroids ∧
    (partition bvh start count).1.bvh_nodes = bvh.bvh_nodes ∧
    ((partition bvh start count).2 = 0 ∨
      (start ≤ (partition bvh start count).2 ∧
        (partition bvh start count).2 < start + count)) := by
  obtain ⟨fp, fv, ft, fc, fn, fpiv⟩ := partitionFold_inv
    (calculate_bounds bvh start count true) start count h1 axisBins
    (bvh, 0, 0, 0, FMAX) h2 (Or.inl rfl)
  have hres := partition_shuffle_inv
    (axisBins.foldl (partitionStep (calculate_bounds bvh start count true) start count)
      (bvh, 0, 0, 0, FMAX)).1
    (axisBins.foldl (partitionStep (calculate_bounds bvh start count true) start count)
      (bvh, 0, 0, 0, FMAX)).2.1
    (axisBins.foldl (partitionStep (calculate_bounds bvh start count true) start count)
      (bvh, 0, 0, 0, FMAX)).2.2.1
    start count h1 (by rw [fp.length_eq]; exact h2)
  obtain ⟨rp, rv, rt, rc, rn, _, _⟩ := hres
  unfold partition
  dsimp only
  exact ⟨rp.trans fp, by rw [rv, fv], by rw [rt, ft], by rw [rc, fc], by rw [rn, fn], fpiv⟩




theorem setNode_eq_some {bvh : BVH} {i : ℕ} {f : BVHNode → BVHNode} {b : BVH}
    (h : setNode bvh i f = some b) :
    i < bvh.bvh_nodes.length ∧
      b = { bvh with bvh_nodes := bvh.bvh_nodes.set i (f (getNode bvh.bvh_nodes i)) } := by
  unfold setNode at h
  split at h
  · exact ⟨by assumption, (Option.some.inj h).symm⟩
  · cases h

theorem set_bound_eq_some {bvh : BVH} {i : ℕ} {ab : AABB} {b : BVH}
    (h : set_bound bvh i ab = some b) :
    i < bvh.bvh_nodes.length ∧
      b = { bvh with bvh_nodes := bvh.bvh_nodes.set i (boundUpd ab (getNode bvh.bvh_nodes i)) } := by
  unfold set_bound at h
  exact setNode_eq_some h

theorem subdivide_zero (bvh : BVH) (cur start pool depth : ℕ) :
    subdivide 0 bvh cur start pool depth = none := rfl

theorem setNode_facts {bvh : BVH} {i : ℕ} {f : BVHNode → BVHNode} {b : BVH}
    (h : setNode bvh i f = some b) :
    b.indices = bvh.indices ∧ b.vertices = bvh.vertices ∧ b.triangles = bvh.triangles ∧
    b.centroids = bvh.centroids ∧ b.bvh_nodes.length = bvh.bvh_nodes.length ∧
    getNode b.bvh_nodes i = f (getNode bvh.bvh_nodes i) ∧
    (∀ j, j ≠ i → getNode b.bvh_nodes j = getNode bvh.bvh_nodes j) := by
  obtain ⟨hlt, rfl⟩ := setNode_eq_some h
  refine ⟨rfl, rfl, rfl, rfl, by simp, ?_, ?_⟩
  · exact getD_set_self _ _ _ _ hlt
  · intro j hj
    exact getD_set_other _ _ _ (Ne.symm hj)

theorem boundUpd_count (ab : AABB) (n : BVHNode) : (boundUpd ab n).count = n.count := rfl

theorem subdivide_inv : ∀ (fuel : ℕ) (bvh : BVH) (cur start pool depth : ℕ) (out : BVH × ℕ),
    subdivide fuel bvh cur start pool depth = some out →
    cur < pool →
    start + (getNode bvh.bvh_nodes cur).count.toNat ≤ bvh.indices.length →
    out.1.indices.Perm bvh.indices ∧
    out.1.vertices = bvh.vertices ∧
    out.1.triangles = bvh.triangles ∧
    out.1.centroids = bvh.centroids ∧
    out.1.bvh_nodes.length = bvh.bvh_nodes.length ∧
    pool ≤ out.2 ∧
    (∀ j, j ≠ cur → j < pool → getNode out.1.bvh_nodes j = getNode bvh.bvh_nodes j) := by
  intro fuel
  induction fuel with
  | zero =>
    intro bvh cur start pool depth out hout hcur hcnt
    rw [subdivide_zero] at hout
    cases hout
  | succ f ih =>
    intro bvh cur start pool depth out hout hcur hcnt
    unfold subdivide at hout
    by_cases hl : cur < bvh.bvh_nodes.length
    swap
    · rw [if_neg hl] at hout; cases hout
    rw [if_pos hl] at hout
    by_cases hleaf : (getNode bvh.bvh_nodes cur).count ≤ 3
    · rw [if_pos hleaf] at hout
      obtain ⟨b1, hb1, hout⟩ := Option.bind_eq_some.mp hout
      obtain ⟨f1i, f1v, f1t, f1c, f1n, f1at, f1fr⟩ := setNode_facts hb1
      obtain rfl : _ = out := Option.some.inj hout
      refine ⟨f1i ▸ List.Perm.refl _, f1v, f1t, f1c, f1n, le_refl _, ?_⟩
      intro j hj _
      exact f1fr j hj
    · rw [if_neg hleaf] at hout
      try dsimp only at hout
      obtain ⟨b1, hb1, hout⟩ := Option.bind_eq_some.mp hout
      obtain ⟨f1i, f1v, f1t, f1c, f1n, f1at, f1fr⟩ := setNode_facts hb1
      try dsimp only at hout
      obtain ⟨b2, hb2, hout⟩ := Option.bind_eq_some.mp hout
      obtain ⟨f2i, f2v, f2t, f2c, f2n, f2at, f2fr⟩ := setNode_facts hb2
      try dsimp only at hout
      obtain ⟨b3, hb3, hout⟩ := Option.bind_eq_some.mp hout
      obtain ⟨f3i, f3v, f3t, f3c, f3n, f3at, f3fr⟩ := setNode_facts hb3
      try dsimp only at hout
      obtain ⟨b4, hb4, hout⟩ := Option.bind_eq_some.mp hout
      obtain ⟨f4i, f4v, f4t, f4c, f4n, f4at, f4fr⟩ := setNode_facts hb4
      try dsimp only at hout
      obtain ⟨b5, hb5, hout⟩ := Option.bind_eq_some.mp hout
      obtain ⟨f5i, f5v, f5t, f5c, f5n, f5at, f5fr⟩ := setNode_facts hb5
      try dsimp only at hout
      obtain ⟨r1, hr1, hout⟩ := Option.bind_eq_some.mp hout
      try dsimp only at hout
      obtain ⟨r2, hr2, hout⟩ := Option.bind_eq_some.mp hout
      try dsimp only at hout
      obtain ⟨bf, hbf, hout⟩ := Option.bind_eq_some.mp hout
      obtain ⟨ffi, ffv, fft, ffc, ffn, ffat, fffr⟩ := setNode_facts hbf
      obtain rfl : _ = out := Option.some.inj hout

      have hc1 : (getNode b1.bvh_nodes cur).count = (getNode bvh.bvh_nodes cur).count := by
        rw [f1at]
      have hcnt1 : start + (getNode b1.bvh_nodes cur).count.toNat ≤ bvh.indices.length := by
        rw [hc1]; exact hcnt
      have hcnt4 : 4 ≤ (getNode b1.bvh_nodes cur).count.toNat := by
        rw [hc1]; omega
      have hlen_b1 : b1.indices.length = bvh.indices.length := by rw [f1i]
      obtain ⟨pp, pv, pt, pc, pn, ppiv⟩ :=
        partition_inv b1 start (getNode b1.bvh_nodes cur).count.toNat (by omega)
          (by rw [hlen_b1]; exact hcnt1)
      have hb1perm : b1.indices.Perm bvh.indices := by
        rw [f1i]
      have hprperm : (partition b1 start (getNode b1.bvh_nodes cur).count.toNat).1.indices.Perm
          bvh.indices := pp.trans hb1perm
      have g2pool : (getNode b2.bvh_nodes pool).count
          = (((partition b1 start (getNode b1.bvh_nodes cur).count.toNat).2 - start : ℕ) : ℤ) := by
        rw [f2at]
      have g3pool : (getNode b3.bvh_nodes pool).count
          = (((partition b1 start (getNode b1.bvh_nodes cur).count.toNat).2 - start : ℕ) : ℤ) := by
        rw [f3at, boundUpd_count, g2pool]
      have g5pool : (getNode b5.bvh_nodes pool).count
          = (((partition b1 start (getNode b1.bvh_nodes cur).count.toNat).2 - start : ℕ) : ℤ) := by
        rw [f5fr pool (by omega), f4fr pool (by omega), g3pool]
      have li5 : b5.indices.length = bvh.indices.length := by
        rw [f5i, f4i, f3i, f2i, hprperm.length_eq]
      have hr1pre : start + (getNode b5.bvh_nodes pool).count.toNat ≤ b5.indices.length := by
        have htn : (getNode b5.bvh_nodes pool).count.toNat
            = (partition b1 start (getNode b1.bvh_nodes cur).count.toNat).2 - start := by
          rw [g5pool]; omega
        rw [htn, li5]
        rcases ppiv with h | h
        · omega
        · omega
      obtain ⟨r1p, r1v, r1t, r1c, r1n, r1pool, r1fr⟩ :=
        ih b5 pool start (pool + 2) (depth + 1) r1 hr1 (by omega) hr1pre
      have g3cur : getNode b3.bvh_nodes cur = getNode b1.bvh_nodes cur := by
        rw [f3fr cur (by omega), f2fr cur (by omega), pn]
      have g5p1 : (getNode b5.bvh_nodes (pool + 1)).count
          = (getNode b1.bvh_nodes cur).count
            - (((partition b1 start (getNode b1.bvh_nodes cur).count.toNat).2 - start : ℕ) : ℤ) := by
        rw [f5at, boundUpd_count, f4at, g3cur]
      have gr1p1 : getNode r1.1.bvh_nodes (pool + 1) = getNode b5.bvh_nodes (pool + 1) :=
        r1fr (pool + 1) (by omega) (by omega)
      have hr2pre : (partition b1 start (getNode b1.bvh_nodes cur).count.toNat).2
          + (getNode r1.1.bvh_nodes (pool + 1)).count.toNat ≤ r1.1.indices.length := by
        have htn : (getNode r1.1.bvh_nodes (pool + 1)).count.toNat
            = (getNode b1.bvh_nodes cur).count.toNat
              - ((partition b1 start (getNode b1.bvh_nodes cur).count.toNat).2 - start) := by
          rw [gr1p1, g5p1]; omega
        rw [htn, r1p.length_eq, li5]
        rcases ppiv with h | h
        · omega
        · omega
      obtain ⟨r2p, r2v, r2t, r2c, r2n, r2pool, r2fr⟩ :=
        ih r1.1 (pool + 1) (partition b1 start (getNode b1.bvh_nodes cur).count.toNat).2
          r1.2 (depth + 1) r2 hr2 (by omega) hr2pre
      refine ⟨?_, ?_, ?_, ?_, ?_, by omega, ?_⟩
      · rw [ffi]
        refine (r2p.trans r1p).trans ?_
        rw [f5i, f4i, f3i, f2i]
        exact hprperm
      · rw [ffv, r2v, r1v, f5v, f4v, f3v, f2v, pv, f1v]
      · rw [fft, r2t, r1t, f5t, f4t, f3t, f2t, pt, f1t]
      · rw [ffc, r2c, r1c, f5c, f4c, f3c, f2c, pc, f1c]
      · rw [ffn, r2n, r1n, f5n, f4n, f3n, f2n, pn, f1n]
      · intro j hj hjp
        rw [fffr j hj, r2fr j (by omega) (by omega), r1fr j (by omega) (by omega),
          f5fr j (by omega), f4fr j (by omega), f3fr j (by omega), f2fr j (by omega),
          pn, f1fr j hj]

/-- C7: whenever `build_bvh` completes, the index array of the result is a
permutation of `0..N` — every triangle id occurs exactly once, no duplicates
and no gaps: the builder only ever rearranges the array through in-place
swaps inside `partition_shuffle`. -/
theorem c7_indices_permutation (fuel : ℕ) (vs : List Point) (ts : List (ℕ × ℕ × ℕ))
    (b : BVH) (h : build_bvh fuel vs ts = some b) :
    b.indices.Perm (List.range ts.length) := by
  unfold build_bvh at h
  dsimp only at h
  obtain ⟨b1, hb1, h⟩ := Option.bind_eq_some.mp h
  obtain ⟨f1i, _, _, _, _, f1at, _⟩ := setNode_facts hb1
  try dsimp only at h
  obtain ⟨b2, hb2, h⟩ := Option.bind_eq_some.mp h
  obtain ⟨f2i, _, _, _, _, f2at, _⟩ := setNode_facts hb2
  try dsimp only at h
  obtain ⟨r, hr, h⟩ := Option.bind_eq_some.mp h
  obtain rfl : _ = b := Option.some.inj h
  have hcount : (getNode b2.bvh_nodes 0).count = (ts.length : ℤ) := by
    rw [f2at, boundUpd_count, f1at]
  have hpre : 0 + (getNode b2.bvh_nodes 0).count.toNat ≤ b2.indices.length := by
    rw [hcount, f2i, f1i]
    simp [initState]
  obtain ⟨rp, _, _, _, _, _, _⟩ := subdivide_inv fuel b2 0 0 2 0 r hr (by omega) hpre
  refine rp.trans ?_
  rw [f2i, f1i]
  show (List.range ts.length).Perm (List.range ts.length)
  exact List.Perm.refl _

unseal Rat.add Rat.mul Rat.sub Rat.inv in
set_option maxRecDepth 100000 in
/-- Witness for C7 on the one-triangle mesh, whose build completes. -/
theorem c7_indices_permutation_witness :
    ((build_bvh 1 exUnitVerts exUnitTris).getD (initState [] [])).indices.Perm
      (List.range exUnitTris.length) :=
  c7_indices_permutation 1 exUnitVerts exUnitTris
    ((build_bvh 1 exUnitVerts exUnitTris).getD (initState [] [])) (by decide)


theorem it_triDist_none {bvh : BVH} {r : Ray} {ti : ℕ}
    (h : triDist bvh r.o r.d ti = none) : intersects_triangle bvh r ti = r := by
  unfold triDist at h
  unfold intersects_triangle
  dsimp only at h ⊢
  split_ifs at h with h1 h2 h3
  · rw [if_pos h1]
  · rw [if_neg h1, if_pos h2]
  · rw [if_neg h1, if_neg h2, if_neg (fun hc => h3 hc.1)]

theorem it_triDist_some_lt {bvh : BVH} {r : Ray} {ti : ℕ} {dc : ℚ}
    (h : triDist bvh r.o r.d ti = some dc) (hlt : dc < r.t) :
    intersects_triangle bvh r ti = { r with t := dc, prim := ti } := by
  unfold triDist at h
  unfold intersects_triangle
  dsimp only at h ⊢
  split_ifs at h with h1 h2 h3
  have hd := Option.some.inj h
  rw [if_neg h1, if_neg h2, if_pos ⟨h3, hd ▸ hlt⟩, hd]

theorem it_triDist_some_ge {bvh : BVH} {r : Ray} {ti : ℕ} {dc : ℚ}
    (h : triDist bvh r.o r.d ti = some dc) (hge : ¬ dc < r.t) :
    intersects_triangle bvh r ti = r := by
  unfold triDist at h
  unfold intersects_triangle
  dsimp only at h ⊢
  split_ifs at h with h1 h2 h3
  have hd := Option.some.inj h
  rw [if_neg h1, if_neg h2, if_neg (fun hc => hge (hd ▸ hc.2))]

theorem stepT_le (bvh : BVH) (o d : Point) (t : ℚ) (i : ℕ) :
    stepT bvh o d t i ≤ t := by
  unfold stepT
  cases triDist bvh o d i with
  | none => exact le_refl t
  | some dc => exact min_le_left t dc

theorem foldT_le (bvh : BVH) (o d : Point) :
    ∀ (l : List ℕ) (t : ℚ), foldT bvh o d l t ≤ t
  | [], t => le_refl t
  | i :: l, t =>
    le_trans (foldT_le bvh o d l (stepT bvh o d t i)) (stepT_le bvh o d t i)

theorem foldT_append (bvh : BVH) (o d : Point) (l1 l2 : List ℕ) (t : ℚ) :
    foldT bvh o d (l1 ++ l2) t = foldT bvh o d l2 (foldT bvh o d l1 t) :=
  List.foldl_append _ _ _ _

theorem stepT_comm (bvh : BVH) (o d : Point) (t : ℚ) (i j : ℕ) :
    stepT bvh o d (stepT bvh o d t i) j = stepT bvh o d (stepT bvh o d t j) i := by
  unfold stepT
  cases triDist bvh o d i with
  | none => rfl
  | some a =>
    cases triDist bvh o d j with
    | none => rfl
    | some b => exact min_right_comm t a b

theorem foldT_perm (bvh : BVH) (o d : Point) {l1 l2 : List ℕ} (h : l1.Perm l2) :
    ∀ t, foldT bvh o d l1 t = foldT bvh o d l2 t := by
  induction h with
  | nil => intro t; rfl
  | cons x _ ih =>
    intro t
    show foldT bvh o d _ (stepT bvh o d t x) = foldT bvh o d _ (stepT bvh o d t x)
    exact ih _
  | swap x y l =>
    intro t
    show foldT bvh o d l (stepT bvh o d (stepT bvh o d t y) x)
      = foldT bvh o d l (stepT bvh o d (stepT bvh o d t x) y)
    rw [stepT_comm]
  | trans _ _ ih1 ih2 =>
    intro t
    exact (ih1 t).trans (ih2 t)

theorem foldT_skip (bvh : BVH) (o d : Point) :
    ∀ (l : List ℕ) (t : ℚ),
      (∀ i ∈ l, ∀ dc, triDist bvh o d i = some dc → t ≤ dc) →
      foldT bvh o d l t = t
  | [], _, _ => rfl
  | i :: l, t, h => by
    have hstep : stepT bvh o d t i = t := by
      unfold stepT
      cases hd : triDist bvh o d i with
      | none => rfl
      | some dc => exact min_eq_left (h i (List.mem_cons_self i l) dc hd)
    show foldT bvh o d l (stepT bvh o d t i) = t
    rw [hstep]
    exact foldT_skip bvh o d l t fun j hj => h j (List.mem_cons_of_mem i hj)

theorem foldl_it_char (bvh : BVH) : ∀ (l : List ℕ) (r : Ray),
    (l.foldl (intersects_triangle bvh) r).o = r.o ∧
    (l.foldl (intersects_triangle bvh) r).d = r.d ∧
    (l.foldl (intersects_triangle bvh) r).d_r = r.d_r ∧
    (l.foldl (intersects_triangle bvh) r).t = foldT bvh r.o r.d l r.t ∧
    ((l.foldl (intersects_triangle bvh) r).t = r.t ∧
        (l.foldl (intersects_triangle bvh) r).prim = r.prim ∨
      (l.foldl (intersects_triangle bvh) r).t < r.t ∧
        ∃ i ∈ l, triDist bvh r.o r.d i = some (l.foldl (intersects_triangle bvh) r).t ∧
          (l.foldl (intersects_triangle bvh) r).prim = i)
  | [], r => ⟨rfl, rfl, rfl, rfl, Or.inl ⟨rfl, rfl⟩⟩
  | i :: l, r => by
    simp only [List.foldl_cons]
    cases hd : triDist bvh r.o r.d i with
    | none =>
      rw [it_triDist_none hd]
      have ih := foldl_it_char bvh l r
      have hstep : stepT bvh r.o r.d r.t i = r.t := by unfold stepT; rw [hd]
      refine ⟨ih.1, ih.2.1, ih.2.2.1, ?_, ?_⟩
      · show _ = foldT bvh r.o r.d l (stepT bvh r.o r.d r.t i)
        rw [hstep]; exact ih.2.2.2.1
      · rcases ih.2.2.2.2 with h | ⟨hlt, j, hj, hjd, hjp⟩
        · exact Or.inl h
        · exact Or.inr ⟨hlt, j, List.mem_cons_of_mem i hj, hjd, hjp⟩
    | some dc =>
      by_cases hlt : dc < r.t
      · rw [it_triDist_some_lt hd hlt]
        set r1 : Ray := { r with t := dc, prim := i } with hr1
        have ih := foldl_it_char bvh l r1
        have ho : r1.o = r.o := rfl
        have hdd : r1.d = r.d := rfl
        have hdr : r1.d_r = r.d_r := rfl
        have ht1 : r1.t = dc := rfl
        have hp1 : r1.prim = i := rfl
        have hstep : stepT bvh r.o r.d r.t i = dc := by
          unfold stepT; rw [hd]; exact min_eq_right (le_of_lt hlt)
        refine ⟨by rw [ih.1, ho], by rw [ih.2.1, hdd], by rw [ih.2.2.1, hdr], ?_, ?_⟩
        · show _ = foldT bvh r.o r.d l (stepT bvh r.o r.d r.t i)
          rw [hstep]
          have := ih.2.2.2.1
          rw [ho, hdd, ht1] at this
          exact this
        · rcases ih.2.2.2.2 with ⟨hte, hpe⟩ | ⟨hlt2, j, hj, hjd, hjp⟩
          · refine Or.inr ⟨by rw [hte, ht1]; exact hlt, i, List.mem_cons_self i l, ?_, ?_⟩
            · rw [hte, ht1]; exact hd
            · rw [hpe, hp1]
          · rw [ho, hdd] at hjd
            refine Or.inr ⟨lt_trans (ht1 ▸ hlt2) hlt, j, List.mem_cons_of_mem i hj, hjd, hjp⟩
      · rw [it_triDist_some_ge hd hlt]
        have ih := foldl_it_char bvh l r
        have hstep : stepT bvh r.o r.d r.t i = r.t := by
          unfold stepT; rw [hd]; exact min_eq_left (le_of_not_lt hlt)
        refine ⟨ih.1, ih.2.1, ih.2.2.1, ?_, ?_⟩
        · show _ = foldT bvh r.o r.d l (stepT bvh r.o r.d r.t i)
          rw [hstep]; exact ih.2.2.2.1
        · rcases ih.2.2.2.2 with h | ⟨hlt2, j, hj, hjd, hjp⟩
          · exact Or.inl h
          · exact Or.inr ⟨hlt2, j, List.mem_cons_of_mem i hj, hjd, hjp⟩


/-- Cramer identity behind the Moller-Trumbore solve (`x` component), in
cleared-denominator polynomial form: with `D` the determinant and `U`, `V`,
`T` the three adjugate products of the source's formulas, the hit point
`o + (T/D) * d` equals `a + (U/D) * (b-a) + (V/D) * (c-a)`. -/
theorem mt_poly_x (o d a b c : Point) :
    dot (psub b a) (cross d (psub c a)) * o.x
      + dot (psub c a) (cross (psub o a) (psub b a)) * d.x
    = dot (psub b a) (cross d (psub c a)) * a.x
      + dot (psub o a) (cross d (psub c a)) * (psub b a).x
      + dot d (cross (psub o a) (psub b a)) * (psub c a).x := by
  simp only [dot, cross, psub]
  ring

/-- Cramer identity, `y` component. -/
theorem mt_poly_y (o d a b c : Point) :
    dot (psub b a) (cross d (psub c a)) * o.y
      + dot (psub c a) (cross (psub o a) (psub b a)) * d.y
    = dot (psub b a) (cross d (psub c a)) * a.y
      + dot (psub o a) (cross d (psub c a)) * (psub b a).y
      + dot d (cross (psub o a) (psub b a)) * (psub c a).y := by
  simp only [dot, cross, psub]
  ring

/-- Cramer identity, `z` component. -/
theorem mt_poly_z (o d a b c : Point) :
    dot (psub b a) (cross d (psub c a)) * o.z
      + dot (psub c a) (cross (psub o a) (psub b a)) * d.z
    = dot (psub b a) (cross d (psub c a)) * a.z
      + dot (psub o a) (cross d (psub c a)) * (psub b a).z
      + dot d (cross (psub o a) (psub b a)) * (psub c a).z := by
  simp only [dot, cross, psub]
  ring

/-- A successful Moller-Trumbore candidate clears the epsilon and its hit
point `o + dc * d` is the barycentric combination of the triangle's
vertices, componentwise. -/
theorem triDist_hitpoint (bvh : BVH) (o d : Point) (ti : ℕ) (dc : ℚ)
    (h : triDist bvh o d ti = some dc) :
    DIST_EPS < dc ∧
    ∃ u v : ℚ, 0 ≤ u ∧ u ≤ 1 ∧ 0 ≤ v ∧ u + v ≤ 1 ∧
      o.x + dc * d.x
        = (1 - u - v) * (getPt bvh.vertices (getTri bvh.triangles ti).1).x
          + u * (getPt bvh.vertices (getTri bvh.triangles ti).2.1).x
          + v * (getPt bvh.vertices (getTri bvh.triangles ti).2.2).x ∧
      o.y + dc * d.y
        = (1 - u - v) * (getPt bvh.vertices (getTri bvh.triangles ti).1).y
          + u * (getPt bvh.vertices (getTri bvh.triangles ti).2.1).y
          + v * (getPt bvh.vertices (getTri bvh.triangles ti).2.2).y ∧
      o.z + dc * d.z
        = (1 - u - v) * (getPt bvh.vertices (getTri bvh.triangles ti).1).z
          + u * (getPt bvh.vertices (getTri bvh.triangles ti).2.1).z
          + v * (getPt bvh.vertices (getTri bvh.triangles ti).2.2).z := by
  unfold triDist at h
  dsimp only at h
  split_ifs at h with h1 h2 h3
  push_neg at h1 h2
  have hd := Option.some.inj h
  set A := getPt bvh.vertices (getTri bvh.triangles ti).1 with hA
  set B := getPt bvh.vertices (getTri bvh.triangles ti).2.1 with hB
  set C := getPt bvh.vertices (getTri bvh.triangles ti).2.2 with hC
  set D := dot (psub B A) (cross d (psub C A)) with hD
  set U := dot (psub o A) (cross d (psub C A)) with hU
  set V := dot d (cross (psub o A) (psub B A)) with hV
  set T := dot (psub C A) (cross (psub o A) (psub B A)) with hT
  have hDne : D ≠ 0 := by
    intro h0
    rw [h0] at h3
    simp only [div_zero, mul_zero] at h3
    exact absurd h3 (by norm_num [DIST_EPS])
  refine ⟨hd ▸ h3, U * (1 / D), V * (1 / D), h1.1, h1.2, h2.1, h2.2, ?_, ?_, ?_⟩
  · have key := mt_poly_x o d A B C
    rw [← hD, ← hU, ← hV, ← hT] at key
    rw [← hd]
    field_simp
    simp only [psub] at key
    linarith [key]
  · have key := mt_poly_y o d A B C
    rw [← hD, ← hU, ← hV, ← hT] at key
    rw [← hd]
    field_simp
    simp only [psub] at key
    linarith [key]
  · have key := mt_poly_z o d A B C
    rw [← hD, ← hU, ← hV, ← hT] at key
    rw [← hd]
    field_simp
    simp only [psub] at key
    linarith [key]

/-- A convex combination of three values stays between common bounds. -/
theorem convex_bound {lo hi av bv cv u v : ℚ} (hu0 : 0 ≤ u) (hv0 : 0 ≤ v)
    (huv : u + v ≤ 1)
    (hla : lo ≤ av) (hlb : lo ≤ bv) (hlc : lo ≤ cv)
    (hha : av ≤ hi) (hhb : bv ≤ hi) (hhc : cv ≤ hi) :
    lo ≤ (1 - u - v) * av + u * bv + v * cv ∧
      (1 - u - v) * av + u * bv + v * cv ≤ hi := by
  have hw : 0 ≤ 1 - u - v := by linarith
  constructor
  · nlinarith [mul_le_mul_of_nonneg_left hla hw, mul_le_mul_of_nonneg_left hlb hu0,
      mul_le_mul_of_nonneg_left hlc hv0]
  · nlinarith [mul_le_mul_of_nonneg_left hha hw, mul_le_mul_of_nonneg_left hhb hu0,
      mul_le_mul_of_nonneg_left hhc hv0]

/-- If the reciprocal direction component is exact (`dcmp * drc = 1`) and
the point at parameter `t` lies between the two slab planes, then `t` lies
between the slab's entry and exit distances. -/
theorem slab_bound {lo hi oc t dcmp drc : ℚ} (hdr : dcmp * drc = 1)
    (hl : lo ≤ oc + t * dcmp) (hh : oc + t * dcmp ≤ hi) :
    slabEntry lo hi oc drc ≤ t ∧ t ≤ slabExit lo hi oc drc := by
  have hdc : dcmp ≠ 0 := by
    intro h0
    rw [h0, zero_mul] at hdr
    exact absurd hdr (by norm_num)
  have hcancel : t * dcmp * drc = t := by rw [mul_assoc, hdr, mul_one]
  rcases hdc.lt_or_lt with hneg | hpos
  · have hdrneg : drc < 0 := by nlinarith
    have h1 : t ≤ (lo - oc) * drc := by
      have hm := mul_le_mul_of_nonpos_right (show lo - oc ≤ t * dcmp by linarith)
        (le_of_lt hdrneg)
      rw [hcancel] at hm
      exact hm
    have h2 : (hi - oc) * drc ≤ t := by
      have hm := mul_le_mul_of_nonpos_right (show t * dcmp ≤ hi - oc by linarith)
        (le_of_lt hdrneg)
      rw [hcancel] at hm
      exact hm
    exact ⟨le_trans (min_le_right _ _) h2, le_trans h1 (le_max_left _ _)⟩
  · have hdrpos : 0 < drc := by nlinarith
    have h1 : (lo - oc) * drc ≤ t := by
      have hm := mul_le_mul_of_nonneg_right (show lo - oc ≤ t * dcmp by linarith)
        (le_of_lt hdrpos)
      rw [hcancel] at hm
      exact hm
    have h2 : t ≤ (hi - oc) * drc := by
      have hm := mul_le_mul_of_nonneg_right (show t * dcmp ≤ hi - oc by linarith)
        (le_of_lt hdrpos)
      rw [hcancel] at hm
      exact hm
    exact ⟨le_trans (min_le_left _ _) h1, le_trans h2 (le_max_right _ _)⟩

/-- A triangle contained in a node's box can only be hit between the node's
slab entry and exit distances (exact reciprocal direction assumed). -/
theorem triDist_slab (bvh : BVH) (r : Ray) (n ti : ℕ) (dc : ℚ)
    (hbox : triInBox bvh (getNode bvh.bvh_nodes n) ti)
    (hsome : triDist bvh r.o r.d ti = some dc)
    (hdr : pmul r.d r.d_r = ⟨1, 1, 1⟩) :
    slabTNear bvh r n ≤ dc ∧ dc ≤ slabTFar bvh r n := by
  obtain ⟨heps, u, v, hu0, hu1, hv0, huv, hx, hy, hz⟩ :=
    triDist_hitpoint bvh r.o r.d ti dc hsome
  obtain ⟨hbA, hbB, hbC⟩ := hbox
  obtain ⟨hax1, hax2, hay1, hay2, haz1, haz2⟩ := hbA
  obtain ⟨hbx1, hbx2, hby1, hby2, hbz1, hbz2⟩ := hbB
  obtain ⟨hcx1, hcx2, hcy1, hcy2, hcz1, hcz2⟩ := hbC
  have hdrx : r.d.x * r.d_r.x = 1 := congrArg Point.x hdr
  have hdry : r.d.y * r.d_r.y = 1 := congrArg Point.y hdr
  have hdrz : r.d.z * r.d_r.z = 1 := congrArg Point.z hdr
  have hpx := convex_bound hu0 hv0 huv hax1 hbx1 hcx1 hax2 hbx2 hcx2
  have hpy := convex_bound hu0 hv0 huv hay1 hby1 hcy1 hay2 hby2 hcy2
  have hpz := convex_bound hu0 hv0 huv haz1 hbz1 hcz1 haz2 hbz2 hcz2
  rw [← hx] at hpx
  rw [← hy] at hpy
  rw [← hz] at hpz
  have hsx := slab_bound hdrx hpx.1 hpx.2
  have hsy := slab_bound hdry hpy.1 hpy.2
  have hsz := slab_bound hdrz hpz.1 hpz.2
  unfold slabTNear slabTFar
  exact ⟨max_le (max_le hsx.1 hsy.1) hsz.1, le_min (le_min hsx.2 hsy.2) hsz.2⟩

/-- The slab test characterization (shared helper form). -/
theorem slab_char (bvh : BVH) (ray : Ray) (n : ℕ) :
    (intersect_aabb bvh ray n).1 =
      if slabTFar bvh ray n ≥ slabTNear bvh ray n ∧ slabTNear bvh ray n < ray.t ∧
          slabTFar bvh ray n > 0
      then slabTNear bvh ray n else FMAX := rfl

/-- A box test either misses (the `f32::MAX` sentinel) or returns a value
strictly below the ray's current `t`. -/
theorem aabb_cases (bvh : BVH) (r : Ray) (n : ℕ) :
    (intersect_aabb bvh r n).1 = FMAX ∨ (intersect_aabb bvh r n).1 < r.t := by
  rw [slab_char]
  split_ifs with hc
  · exact Or.inr hc.2.1
  · exact Or.inl rfl

/-- A passing box test bounds from below every candidate hit of any triangle
contained in the node's box. -/
theorem aabb_pass (bvh : BVH) (r : Ray) (n : ℕ)
    (hdr : pmul r.d r.d_r = ⟨1, 1, 1⟩)
    (hne : (intersect_aabb bvh r n).1 ≠ FMAX) :
    ∀ ti, triInBox bvh (getNode bvh.bvh_nodes n) ti →
      ∀ dc, triDist bvh r.o r.d ti = some dc → (intersect_aabb bvh r n).1 ≤ dc := by
  intro ti hbox dc hsome
  rw [slab_char] at hne ⊢
  split_ifs at hne ⊢ with hc
  · exact (triDist_slab bvh r n ti dc hbox hsome hdr).1
  · exact absurd rfl hne

/-- A failing box test means no triangle contained in the node's box can
beat the ray's current `t`. -/
theorem aabb_fail (bvh : BVH) (r : Ray) (n : ℕ)
    (hdr : pmul r.d r.d_r = ⟨1, 1, 1⟩) (ht : r.t ≤ FMAX)
    (hfail : (intersect_aabb bvh r n).1 = FMAX) :
    ∀ ti, triInBox bvh (getNode bvh.bvh_nodes n) ti →
      ∀ dc, triDist bvh r.o r.d ti = some dc → r.t ≤ dc := by
  intro ti hbox dc hsome
  have hs := triDist_slab bvh r n ti dc hbox hsome hdr
  have heps : DIST_EPS < dc := (triDist_hitpoint bvh r.o r.d ti dc hsome).1
  rw [slab_char] at hfail
  split_ifs at hfail with hc
  · exact absurd ht (not_le.mpr (hfail ▸ hc.2.1))
  · push_neg at hc
    by_cases hB : slabTNear bvh r n < r.t
    · have hC := hc (le_trans hs.1 hs.2) hB
      have : (0 : ℚ) < DIST_EPS := by norm_num [DIST_EPS]
      linarith [hs.2]
    · exact le_trans (not_lt.mp hB) hs.1

theorem subIds_split (bvh : BVH) (s c1 c2 : ℕ) :
    subIds bvh s (c1 + c2) = subIds bvh s c1 ++ subIds bvh (s + c1) c2 := by
  unfold subIds
  rw [List.range_add, List.map_append, List.map_map]
  congr 1
  apply List.map_congr_left
  intro k _
  simp only [Function.comp_apply]
  congr 1
  omega


theorem nodeOK_len {h : ℕ} {bvh : BVH} {n s c : ℕ} (hn : nodeOK h bvh n s c) :
    n < bvh.bvh_nodes.length := by
  cases h with
  | zero => exact hn.elim
  | succ h => exact hn.1

theorem nodeOK_box {h : ℕ} {bvh : BVH} {n s c : ℕ} (hn : nodeOK h bvh n s c) :
    ∀ i ∈ subIds bvh s c, triInBox bvh (getNode bvh.bvh_nodes n) i := by
  intro i hi
  obtain ⟨k, hk, rfl⟩ := List.mem_map.mp hi
  cases h with
  | zero => exact hn.elim
  | succ h => exact hn.2.2.1 k hk

theorem popLoop_lt (rt t0 : ℚ) (ni : ℕ) (st : List (ℕ × ℚ)) (h : t0 < rt) :
    popLoop rt t0 ni st = some (ni, st) := by
  cases st with
  | nil => unfold popLoop; rw [if_neg (not_le.mpr h)]
  | cons e st => unfold popLoop; rw [if_neg (not_le.mpr h)]

/-- The pop loop either exhausts a stack of subtrees that can all be
skipped at the ray's current best `rt`, or surfaces the first entry that
can still beat it, with the skipped prefix harmless to the running
minimum. -/
theorem popLoop_spec (bvh : BVH) (o d : Point) (rt : ℚ) :
    ∀ (st : List (ℕ × ℚ)) (L : List (List ℕ)) (ni : ℕ) (t0 : ℚ),
      List.Forall₂ (stackEntryOK bvh o d) st L → rt ≤ t0 →
      (popLoop rt t0 ni st = none ∧ foldT bvh o d L.flatten rt = rt) ∨
      (∃ n2 t2 st2 ids2 L2,
        popLoop rt t0 ni st = some (n2, st2) ∧
        List.Forall₂ (stackEntryOK bvh o d) st2 L2 ∧
        stackEntryOK bvh o d (n2, t2) ids2 ∧
        foldT bvh o d L.flatten rt = foldT bvh o d (ids2 ++ L2.flatten) rt ∧
        ∀ i, i ∈ ids2 ++ L2.flatten → i ∈ L.flatten)
  | [], L, ni, t0, hf, hge => by
    cases hf
    left
    constructor
    · unfold popLoop
      rw [if_pos hge]
    · rfl
  | (n, t) :: st, L, ni, t0, hf, hge => by
    rcases List.forall₂_cons_left_iff.mp hf with ⟨ids, LR, he, hrest, rfl⟩
    have hstep : popLoop rt t0 ni ((n, t) :: st) = popLoop rt t n st := by
      conv_lhs => unfold popLoop
      rw [if_pos hge]
    rw [hstep]
    by_cases hlt : t < rt
    · right
      refine ⟨n, t, st, ids, LR, popLoop_lt rt t n st hlt, hrest, he, ?_, ?_⟩
      · rw [List.flatten_cons]
      · intro i hi
        rw [List.flatten_cons]
        exact hi
    · have hsk : foldT bvh o d ids rt = rt :=
        foldT_skip bvh o d ids rt
          (fun i hi dc hdc => le_trans (not_lt.mp hlt) (he.2 i hi dc hdc))
      rcases popLoop_spec bvh o d rt st LR n t hrest (not_lt.mp hlt) with
        ⟨hpop, hfold⟩ | ⟨n2, t2, st2, ids2, L2, hpop, hf2, he2, hfold, hmem⟩
      · left
        refine ⟨hpop, ?_⟩
        rw [List.flatten_cons, foldT_append, hsk, hfold]
      · right
        refine ⟨n2, t2, st2, ids2, L2, hpop, hf2, he2, ?_, ?_⟩
        · rw [List.flatten_cons, foldT_append, hsk, hfold]
        · intro i hi
          rw [List.flatten_cons]
          exact List.mem_append.mpr (Or.inr (hmem i hi))
theorem nodeOK_succ_iff (h : ℕ) (bvh : BVH) (n s c : ℕ) :
    nodeOK (h + 1) bvh n s c ↔
      n < bvh.bvh_nodes.length ∧
      s + c ≤ bvh.indices.length ∧
      (∀ k ∈ List.range c,
        triInBox bvh (getNode bvh.bvh_nodes n) (bvh.indices.getD (s + k) 0)) ∧
      ((0 < (getNode bvh.bvh_nodes n).count ∧
          (getNode bvh.bvh_nodes n).left_first = (s : ℤ) ∧
          (getNode bvh.bvh_nodes n).count = (c : ℤ)) ∨
        (¬ 0 < (getNode bvh.bvh_nodes n).count ∧
          ∃ cl ∈ List.range (c + 1),
            nodeOK h bvh (getNode bvh.bvh_nodes n).left_first.toNat s cl ∧
            nodeOK h bvh ((getNode bvh.bvh_nodes n).left_first.toNat + 1) (s + cl) (c - cl))) :=
  Iff.rfl

/-- Main invariant of the `'outer` traversal loop: started at a well-formed
subtree with a well-formed stack, a run that exits normally returns the ray
whose `t` is the running minimum of the incoming `t` and every remaining
candidate hit, and whose `prim` names a triangle attaining that minimum
whenever it improved. -/
theorem go_spec (bvh : BVH) :
    ∀ (g : ℕ) (r : Ray) (ni : ℕ) (st : List (ℕ × ℚ)) (s c : ℕ)
      (L : List (List ℕ)) (out : Ray),
      fast_intersect_go g bvh r ni st = some out →
      (∃ h, nodeOK h bvh ni s c) →
      List.Forall₂ (stackEntryOK bvh r.o r.d) st L →
      pmul r.d r.d_r = ⟨1, 1, 1⟩ →
      r.t ≤ FMAX →
      out.o = r.o ∧ out.d = r.d ∧ out.d_r = r.d_r ∧
      out.t = foldT bvh r.o r.d (subIds bvh s c ++ L.flatten) r.t ∧
      (out.t = r.t ∧ out.prim = r.prim ∨
        out.t < r.t ∧ ∃ i ∈ subIds bvh s c ++ L.flatten,
          triDist bvh r.o r.d i = some out.t ∧ out.prim = i) := by
  intro g
  induction g with
  | zero =>
    intro r ni st s c L out hgo
    exact absurd hgo (by unfold fast_intersect_go; simp)
  | succ g ih =>
    intro r ni st s c L out hgo hex hst hdr ht
    obtain ⟨h, hn⟩ := hex
    cases h with
    | zero => exact hn.elim
    | succ h =>
    rw [nodeOK_succ_iff] at hn
    obtain ⟨hni, hbnd, hboxes, hcase⟩ := hn
    unfold fast_intersect_go at hgo
    unfold fast_step at hgo
    rw [if_pos hni] at hgo
    rcases hcase with ⟨hpos, hlf, hcnt⟩ | ⟨hneg, cl, hclmem, hnl, hnr⟩
    · -- leaf: fold the range, then exit or pop
      rw [if_pos hpos] at hgo
      have hfold_arg : (List.range (getNode bvh.bvh_nodes ni).count.toNat).foldl
          (fun r (i : ℕ) => intersects_triangle bvh r
            (bvh.indices.getD ((getNode bvh.bvh_nodes ni).left_first + (i : ℤ)).toNat 0)) r
          = (subIds bvh s c).foldl (intersects_triangle bvh) r := by
        rw [hcnt, Int.toNat_natCast]
        unfold subIds
        rw [List.foldl_map]
        apply foldl_congr_on
        intro i hi acc
        have harg : ((getNode bvh.bvh_nodes ni).left_first + (i : ℤ)).toNat = s + i := by
          rw [hlf]; omega
        rw [harg]
      rw [hfold_arg] at hgo
      set r1 := (subIds bvh s c).foldl (intersects_triangle bvh) r with hr1
      have hchar := foldl_it_char bvh (subIds bvh s c) r
      rw [← hr1] at hchar
      obtain ⟨hco, hcd, hcdr, hct, hcp⟩ := hchar
      have hr1le : r1.t ≤ r.t := by rw [hct]; exact foldT_le bvh r.o r.d _ r.t
      cases st with
      | nil =>
        dsimp only at hgo
        obtain rfl : r1 = out := Option.some.inj hgo
        cases hst
        rw [List.flatten_nil, List.append_nil]
        exact ⟨hco, hcd, hcdr, hct, hcp⟩
      | cons e st' =>
        dsimp only at hgo
        rcases popLoop_spec bvh r.o r.d r1.t (e :: st') L ni FMAX hst
            (le_trans hr1le ht) with
          ⟨hpop, hfold⟩ | ⟨n2, t2, st2, ids2, L2, hpop, hf2, he2, hfold, hmem⟩
        · rw [hpop] at hgo
          dsimp only at hgo
          obtain rfl : r1 = out := Option.some.inj hgo
          refine ⟨hco, hcd, hcdr, ?_, ?_⟩
          · rw [foldT_append, ← hct, hfold]
          · rcases hcp with hl | ⟨hlt, i, hi, hid, hip⟩
            · exact Or.inl hl
            · exact Or.inr ⟨hlt, i, List.mem_append.mpr (Or.inl hi), hid, hip⟩
        · rw [hpop] at hgo
          dsimp only at hgo
          obtain ⟨⟨h2, s2, c2, hn2, hids2⟩, hbound2⟩ := he2
          have hf2' : List.Forall₂ (stackEntryOK bvh r1.o r1.d) st2 L2 := by
            rw [hco, hcd]; exact hf2
          have hdr1 : pmul r1.d r1.d_r = ⟨1, 1, 1⟩ := by
            rw [hcd, hcdr]; exact hdr
          have ht1 : r1.t ≤ FMAX := le_trans hr1le ht
          obtain ⟨ho2, hd2, hdr2, ht2, hp2⟩ :=
            ih r1 n2 st2 s2 c2 L2 out hgo ⟨h2, hn2⟩ hf2' hdr1 ht1
          have htout : out.t = foldT bvh r.o r.d (subIds bvh s c ++ L.flatten) r.t := by
            rw [foldT_append, ← hct, hfold, hids2, ht2, hco, hcd]
          refine ⟨by rw [ho2, hco], by rw [hd2, hcd], by rw [hdr2, hcdr], htout, ?_⟩
          rcases hp2 with ⟨hte, hpe⟩ | ⟨hlt2, i, hi, hid, hip⟩
          · rcases hcp with ⟨hte1, hpe1⟩ | ⟨hlt1, i, hi, hid, hip⟩
            · exact Or.inl ⟨by rw [hte, hte1], by rw [hpe, hpe1]⟩
            · refine Or.inr ⟨by rw [hte]; exact hlt1, i,
                List.mem_append.mpr (Or.inl hi), by rw [hte]; exact hid,
                by rw [hpe]; exact hip⟩
          · rw [hco, hcd] at hid
            rw [← hids2] at hi
            refine Or.inr ⟨lt_of_lt_of_le hlt2 hr1le, i,
              List.mem_append.mpr (Or.inr (hmem i hi)), hid, hip⟩
    · -- internal node: box-test the two children
      rw [if_neg hneg] at hgo
      have hcl : cl ≤ c := by have := List.mem_range.mp hclmem; omega
      have hch2 : (getNode bvh.bvh_nodes ni).left_first.toNat + 1 < bvh.bvh_nodes.length :=
        nodeOK_len hnr
      rw [if_pos hch2] at hgo
      dsimp only at hgo
      have hsplit : subIds bvh s c = subIds bvh s cl ++ subIds bvh (s + cl) (c - cl) := by
        conv_lhs => rw [show c = cl + (c - cl) by omega]
        exact subIds_split bvh s cl (c - cl)
      have hboxL := nodeOK_box hnl
      have hboxR := nodeOK_box hnr
      have hd1le : (intersect_aabb bvh r ((getNode bvh.bvh_nodes ni).left_first.toNat)).1 ≤ FMAX := by
        rcases aabb_cases bvh r ((getNode bvh.bvh_nodes ni).left_first.toNat) with hq | hq
        · exact le_of_eq hq
        · exact le_trans (le_of_lt hq) ht
      have hd2le : (intersect_aabb bvh r ((getNode bvh.bvh_nodes ni).left_first.toNat + 1)).1 ≤ FMAX := by
        rcases aabb_cases bvh r ((getNode bvh.bvh_nodes ni).left_first.toNat + 1) with hq | hq
        · exact le_of_eq hq
        · exact le_trans (le_of_lt hq) ht
      -- skip lemmas for a missing child
      have hskipL : (intersect_aabb bvh r ((getNode bvh.bvh_nodes ni).left_first.toNat)).1 = FMAX →
          ∀ i ∈ subIds bvh s cl, ∀ dc, triDist bvh r.o r.d i = some dc → r.t ≤ dc :=
        fun hf i hi dc hdc =>
          aabb_fail bvh r _ hdr ht hf i (hboxL i hi) dc hdc
      have hskipR : (intersect_aabb bvh r ((getNode bvh.bvh_nodes ni).left_first.toNat + 1)).1 = FMAX →
          ∀ i ∈ subIds bvh (s + cl) (c - cl), ∀ dc, triDist bvh r.o r.d i = some dc → r.t ≤ dc :=
        fun hf i hi dc hdc =>
          aabb_fail bvh r _ hdr ht hf i (hboxR i hi) dc hdc
      by_cases hcmp : (intersect_aabb bvh r ((getNode bvh.bvh_nodes ni).left_first.toNat)).1 >
          (intersect_aabb bvh r ((getNode bvh.bvh_nodes ni).left_first.toNat + 1)).1
      · -- near = right child, far = left child
        rw [if_pos hcmp] at hgo
        dsimp only at hgo
        have hn1F : ¬ (intersect_aabb bvh r ((getNode bvh.bvh_nodes ni).left_first.toNat + 1)).1 = FMAX := by
          intro hq
          rw [hq] at hcmp
          exact absurd hd1le (not_le.mpr hcmp)
        rw [if_neg hn1F] at hgo
        by_cases hfarF : (intersect_aabb bvh r ((getNode bvh.bvh_nodes ni).left_first.toNat)).1 ≠ FMAX
        · -- both hit: push far (left child)
          rw [if_pos hfarF] at hgo
          by_cases hlen : st.length < 32
          swap
          · rw [if_neg hlen] at hgo
            dsimp only at hgo
            exact absurd hgo (by simp)
          rw [if_pos hlen] at hgo
          dsimp only at hgo
          have hboundF : ∀ i ∈ subIds bvh s cl, ∀ dc, triDist bvh r.o r.d i = some dc →
              (intersect_aabb bvh r ((getNode bvh.bvh_nodes ni).left_first.toNat)).1 ≤ dc :=
            fun i hi dc hdc => aabb_pass bvh r _ hdr hfarF i (hboxL i hi) dc hdc
          have hstack' : List.Forall₂ (stackEntryOK bvh r.o r.d)
              ((((getNode bvh.bvh_nodes ni).left_first.toNat,
                  (intersect_aabb bvh r ((getNode bvh.bvh_nodes ni).left_first.toNat)).1)) :: st)
              (subIds bvh s cl :: L) :=
            List.Forall₂.cons ⟨⟨h, s, cl, hnl, rfl⟩, hboundF⟩ hst
          obtain ⟨ho2, hd2, hdr2, ht2, hp2⟩ :=
            ih r ((getNode bvh.bvh_nodes ni).left_first.toNat + 1) _ (s + cl) (c - cl)
              (subIds bvh s cl :: L) out hgo ⟨h, hnr⟩ hstack' hdr ht
          have hperm : (subIds bvh (s + cl) (c - cl) ++ (subIds bvh s cl :: L).flatten).Perm
              (subIds bvh s c ++ L.flatten) := by
            rw [List.flatten_cons, hsplit, List.append_assoc]
            exact List.perm_append_comm_assoc _ _ _
          refine ⟨ho2, hd2, hdr2, ?_, ?_⟩
          · rw [ht2, foldT_perm bvh r.o r.d hperm]
          · rcases hp2 with hl | ⟨hlt, i, hi, hid, hip⟩
            · exact Or.inl hl
            · exact Or.inr ⟨hlt, i, hperm.mem_iff.mp hi, hid, hip⟩
        · -- far (left child) missed: descend right only
          rw [if_neg hfarF] at hgo
          dsimp only at hgo
          push_neg at hfarF
          obtain ⟨ho2, hd2, hdr2, ht2, hp2⟩ :=
            ih r ((getNode bvh.bvh_nodes ni).left_first.toNat + 1) st (s + cl) (c - cl)
              L out hgo ⟨h, hnr⟩ hst hdr ht
          have hperm : (subIds bvh s c ++ L.flatten).Perm
              (subIds bvh s cl ++ (subIds bvh (s + cl) (c - cl) ++ L.flatten)) := by
            rw [hsplit, List.append_assoc]
          have hskip : foldT bvh r.o r.d (subIds bvh s cl) r.t = r.t :=
            foldT_skip bvh r.o r.d _ r.t (hskipL hfarF)
          refine ⟨ho2, hd2, hdr2, ?_, ?_⟩
          · rw [foldT_perm bvh r.o r.d hperm, foldT_append, hskip, ht2]
          · rcases hp2 with hl | ⟨hlt, i, hi, hid, hip⟩
            · exact Or.inl hl
            · refine Or.inr ⟨hlt, i, ?_, hid, hip⟩
              apply hperm.mem_iff.mpr
              exact List.mem_append.mpr (Or.inr hi)
      · -- near = left child, far = right child
        rw [if_neg hcmp] at hgo
        dsimp only at hgo
        push_neg at hcmp
        by_cases hnearF : (intersect_aabb bvh r ((getNode bvh.bvh_nodes ni).left_first.toNat)).1 = FMAX
        · -- both children miss: the whole subtree is skippable
          have hrightF : (intersect_aabb bvh r ((getNode bvh.bvh_nodes ni).left_first.toNat + 1)).1 = FMAX :=
            le_antisymm hd2le (hnearF ▸ hcmp)
          rw [if_pos hnearF] at hgo
          have hskipAll : ∀ i ∈ subIds bvh s c, ∀ dc, triDist bvh r.o r.d i = some dc →
              r.t ≤ dc := by
            intro i hi dc hdc
            rw [hsplit] at hi
            rcases List.mem_append.mp hi with hi | hi
            · exact hskipL hnearF i hi dc hdc
            · exact hskipR hrightF i hi dc hdc
          have hskipS : foldT bvh r.o r.d (subIds bvh s c) r.t = r.t :=
            foldT_skip bvh r.o r.d _ r.t hskipAll
          cases st with
          | nil =>
            dsimp only at hgo
            obtain rfl : r = out := Option.some.inj hgo
            cases hst
            rw [List.flatten_nil, List.append_nil]
            exact ⟨rfl, rfl, rfl, hskipS.symm, Or.inl ⟨rfl, rfl⟩⟩
          | cons e st' =>
            dsimp only at hgo
            rcases popLoop_spec bvh r.o r.d r.t (e :: st') L ni FMAX hst ht with
              ⟨hpop, hfold⟩ | ⟨n2, t2, st2, ids2, L2, hpop, hf2, he2, hfold, hmem⟩
            · rw [hpop] at hgo
              dsimp only at hgo
              obtain rfl : r = out := Option.some.inj hgo
              refine ⟨rfl, rfl, rfl, ?_, Or.inl ⟨rfl, rfl⟩⟩
              rw [foldT_append, hskipS, hfold]
            · rw [hpop] at hgo
              dsimp only at hgo
              obtain ⟨⟨h2, s2, c2, hn2, hids2⟩, hbound2⟩ := he2
              obtain ⟨ho2, hd2, hdr2, ht2, hp2⟩ :=
                ih r n2 st2 s2 c2 L2 out hgo ⟨h2, hn2⟩ hf2 hdr ht
              have htout : out.t = foldT bvh r.o r.d (subIds bvh s c ++ L.flatten) r.t := by
                rw [foldT_append, hskipS, hfold, hids2, ht2]
              refine ⟨ho2, hd2, hdr2, htout, ?_⟩
              rcases hp2 with hl | ⟨hlt, i, hi, hid, hip⟩
              · exact Or.inl hl
              · rw [← hids2] at hi
                exact Or.inr ⟨hlt, i, List.mem_append.mpr (Or.inr (hmem i hi)), hid, hip⟩
        · -- near (left child) hit
          rw [if_neg hnearF] at hgo
          by_cases hfarF : (intersect_aabb bvh r ((getNode bvh.bvh_nodes ni).left_first.toNat + 1)).1 ≠ FMAX
          · -- both hit: push far (right child)
            rw [if_pos hfarF] at hgo
            by_cases hlen : st.length < 32
            swap
            · rw [if_neg hlen] at hgo
              dsimp only at hgo
              exact absurd hgo (by simp)
            rw [if_pos hlen] at hgo
            dsimp only at hgo
            have hboundF : ∀ i ∈ subIds bvh (s + cl) (c - cl), ∀ dc,
                triDist bvh r.o r.d i = some dc →
                (intersect_aabb bvh r ((getNode bvh.bvh_nodes ni).left_first.toNat + 1)).1 ≤ dc :=
              fun i hi dc hdc => aabb_pass bvh r _ hdr hfarF i (hboxR i hi) dc hdc
            have hstack' : List.Forall₂ (stackEntryOK bvh r.o r.d)
                ((((getNode bvh.bvh_nodes ni).left_first.toNat + 1,
                    (intersect_aabb bvh r ((getNode bvh.bvh_nodes ni).left_first.toNat + 1)).1)) :: st)
                (subIds bvh (s + cl) (c - cl) :: L) :=
              List.Forall₂.cons ⟨⟨h, s + cl, c - cl, hnr, rfl⟩, hboundF⟩ hst
            obtain ⟨ho2, hd2, hdr2, ht2, hp2⟩ :=
              ih r ((getNode bvh.bvh_nodes ni).left_first.toNat) _ s cl
                (subIds bvh (s + cl) (c - cl) :: L) out hgo ⟨h, hnl⟩ hstack' hdr ht
            have hperm : (subIds bvh s cl ++ (subIds bvh (s + cl) (c - cl) :: L).flatten).Perm
                (subIds bvh s c ++ L.flatten) := by
              rw [List.flatten_cons, hsplit, List.append_assoc]
            refine ⟨ho2, hd2, hdr2, ?_, ?_⟩
            · rw [ht2, foldT_perm bvh r.o r.d hperm]
            · rcases hp2 with hl | ⟨hlt, i, hi, hid, hip⟩
              · exact Or.inl hl
              · exact Or.inr ⟨hlt, i, hperm.mem_iff.mp hi, hid, hip⟩
          · -- far (right child) missed: descend left only
            rw [if_neg hfarF] at hgo
            dsimp only at hgo
            push_neg at hfarF
            obtain ⟨ho2, hd2, hdr2, ht2, hp2⟩ :=
              ih r ((getNode bvh.bvh_nodes ni).left_first.toNat) st s cl L out hgo
                ⟨h, hnl⟩ hst hdr ht
            have hperm : (subIds bvh s c ++ L.flatten).Perm
                (subIds bvh (s + cl) (c - cl) ++ (subIds bvh s cl ++ L.flatten)) := by
              rw [hsplit, List.append_assoc]
              exact List.perm_append_comm_assoc _ _ _
            have hskip : foldT bvh r.o r.d (subIds bvh (s + cl) (c - cl)) r.t = r.t :=
              foldT_skip bvh r.o r.d _ r.t (hskipR hfarF)
            refine ⟨ho2, hd2, hdr2, ?_, ?_⟩
            · rw [foldT_perm bvh r.o r.d hperm, foldT_append, hskip, ht2]
            · rcases hp2 with hl | ⟨hlt, i, hi, hid, hip⟩
              · exact Or.inl hl
              · refine Or.inr ⟨hlt, i, ?_, hid, hip⟩
                apply hperm.mem_iff.mpr
                exact List.mem_append.mpr (Or.inr hi)

theorem subIds_full (bvh : BVH) : subIds bvh 0 bvh.indices.length = bvh.indices := by
  unfold subIds
  apply List.ext_getElem
  · simp
  · intro i h1 h2
    simp only [List.getElem_map, List.getElem_range, Nat.zero_add]
    rw [List.getD_eq_getElem?_getD, List.getElem?_eq_getElem h2]
    rfl

/-- A completed build keeps the triangle list and permutes `0..N` into the
index array (shared helper). -/
theorem build_facts (fuel : ℕ) (vs : List Point) (ts : List (ℕ × ℕ × ℕ)) (b : BVH)
    (h : build_bvh fuel vs ts = some b) :
    b.triangles = ts ∧ b.indices.Perm (List.range ts.length) := by
  unfold build_bvh at h
  dsimp only at h
  obtain ⟨b1, hb1, h⟩ := Option.bind_eq_some.mp h
  obtain ⟨f1i, f1v, f1t, _, _, f1at, _⟩ := setNode_facts hb1
  try dsimp only at h
  obtain ⟨b2, hb2, h⟩ := Option.bind_eq_some.mp h
  obtain ⟨f2i, f2v, f2t, _, _, f2at, _⟩ := setNode_facts hb2
  try dsimp only at h
  obtain ⟨rr, hr, h⟩ := Option.bind_eq_some.mp h
  obtain rfl : _ = b := Option.some.inj h
  have hcount : (getNode b2.bvh_nodes 0).count = (ts.length : ℤ) := by
    rw [f2at, boundUpd_count, f1at]
  have hpre : 0 + (getNode b2.bvh_nodes 0).count.toNat ≤ b2.indices.length := by
    rw [hcount, f2i, f1i]
    simp [initState]
  obtain ⟨rp, _, rt', _, _, _, _⟩ := subdivide_inv fuel b2 0 0 2 0 rr hr (by omega) hpre
  constructor
  · show rr.1.triangles = ts
    rw [rt', f2t, f1t]
    rfl
  · show rr.1.indices.Perm (List.range ts.length)
    refine rp.trans ?_
    rw [f2i, f1i]
    show (List.range ts.length).Perm (List.range ts.length)
    exact List.Perm.refl _

theorem ray_eq {a b : Ray} (h1 : a.o = b.o) (h2 : a.d = b.d) (h3 : a.d_r = b.d_r)
    (h4 : a.t = b.t) (h5 : a.prim = b.prim) : a = b := by
  cases a
  cases b
  dsimp at h1 h2 h3 h4 h5
  subst h1
  subst h2
  subst h3
  subst h4
  subst h5
  rfl

/-- C1 (amended): for a mesh on which `build_bvh` has completed and whose
resulting node tree is well formed over the whole index range (`nodeOK` —
in particular no reachable leaf is empty; the second part of the
counterexample shows a completed build can violate this), and for every ray
whose precomputed reciprocal direction is exact (`d * d_r = 1` on every
component, so no direction component is zero) and whose initial `t` is at
most `f32::MAX`: whenever the stack traversal `fast_intersect` exits
normally, its final `t`, origin and direction agree exactly with the
brute-force scan `intersect`; and the final `prim` — hence the whole final
ray state — agrees as well as soon as no two distinct triangles attain the
winning hit distance (the first part of the counterexample shows `prim` can
differ on such a tie). -/
theorem c1_traversal_matches_scan (fb ff h : ℕ) (vs : List Point)
    (ts : List (ℕ × ℕ × ℕ)) (b : BVH) (r out : Ray)
    (hb : build_bvh fb vs ts = some b)
    (hwf : nodeOK h b 0 0 ts.length)
    (hdr : pmul r.d r.d_r = ⟨1, 1, 1⟩)
    (ht : r.t ≤ FMAX)
    (hrun : fast_intersect ff b r = some out) :
    out.t = (intersect b r).t ∧ out.o = (intersect b r).o ∧
    out.d = (intersect b r).d ∧ out.d_r = (intersect b r).d_r ∧
    ((∀ i ∈ List.range ts.length, ∀ j ∈ List.range ts.length,
        triDist b r.o r.d i = some (intersect b r).t →
        triDist b r.o r.d j = some (intersect b r).t → i = j) →
      out = intersect b r) := by
  obtain ⟨htris, hperm⟩ := build_facts fb vs ts b hb
  have hNidx : b.indices.length = ts.length := by
    rw [hperm.length_eq, List.length_range]
  have hsc : intersect b r = (List.range b.triangles.length).foldl (intersects_triangle b) r :=
    rfl
  have hscan := foldl_it_char b (List.range b.triangles.length) r
  rw [← hsc] at hscan
  obtain ⟨hso, hsd, hsdr, hstt, hsp⟩ := hscan
  unfold fast_intersect at hrun
  obtain ⟨hto, htd, htdr, httt, htp⟩ :=
    go_spec b ff r 0 [] 0 ts.length [] out hrun ⟨h, hwf⟩ List.Forall₂.nil hdr ht
  rw [List.flatten_nil, List.append_nil] at httt htp
  have hsub : subIds b 0 ts.length = b.indices := by
    rw [← hNidx]
    exact subIds_full b
  rw [hsub] at httt htp
  have hpermN : b.indices.Perm (List.range b.triangles.length) := by
    rw [htris]
    exact hperm
  have hteq : out.t = (intersect b r).t := by
    rw [httt, hstt, foldT_perm b r.o r.d hpermN]
  refine ⟨hteq, by rw [hto, hso], by rw [htd, hsd], by rw [htdr, hsdr], ?_⟩
  intro hnt
  refine ray_eq (by rw [hto, hso]) (by rw [htd, hsd]) (by rw [htdr, hsdr]) hteq ?_
  rcases htp with ⟨hte, hpe⟩ | ⟨hlt, i, hi, hid, hip⟩
  · rcases hsp with ⟨hse, hspe⟩ | ⟨hslt, j, hj, hjd, hjp⟩
    · rw [hpe, hspe]
    · exfalso
      rw [hteq] at hte
      rw [hte] at hslt
      exact lt_irrefl _ hslt
  · rcases hsp with ⟨hse, hspe⟩ | ⟨hslt, j, hj, hjd, hjp⟩
    · exfalso
      rw [hse] at hteq
      rw [hteq] at hlt
      exact lt_irrefl _ hlt
    · have hiN : i ∈ List.range ts.length := hperm.mem_iff.mp hi
      have hjN : j ∈ List.range ts.length := by
        rw [htris] at hj
        exact hj
      have hij : i = j := hnt i hiN j hjN (by rw [← hteq]; exact hid) hjd
      rw [hip, hjp, hij]

unseal Rat.add Rat.mul Rat.sub Rat.inv in
set_option maxRecDepth 1000000 in
/-- Witness for the amended C1 theorem: the completed one-triangle build and
a ray with every direction component nonzero; every hypothesis (the build
equation, tree well-formedness, the exact reciprocal, the `t` bound, the
traversal run and the no-tie condition) is discharged by evaluation. -/
theorem c1_traversal_matches_scan_witness :
    exC1Out.t = (intersect (smallBuilt exUnitVerts exUnitTris) exC1Ray).t ∧
    exC1Out.o = (intersect (smallBuilt exUnitVerts exUnitTris) exC1Ray).o ∧
    exC1Out.d = (intersect (smallBuilt exUnitVerts exUnitTris) exC1Ray).d ∧
    exC1Out.d_r = (intersect (smallBuilt exUnitVerts exUnitTris) exC1Ray).d_r ∧
    ((∀ i ∈ List.range exUnitTris.length, ∀ j ∈ List.range exUnitTris.length,
        triDist (smallBuilt exUnitVerts exUnitTris) exC1Ray.o exC1Ray.d i
          = some (intersect (smallBuilt exUnitVerts exUnitTris) exC1Ray).t →
        triDist (smallBuilt exUnitVerts exUnitTris) exC1Ray.o exC1Ray.d j
          = some (intersect (smallBuilt exUnitVerts exUnitTris) exC1Ray).t → i = j) →
      exC1Out = intersect (smallBuilt exUnitVerts exUnitTris) exC1Ray) :=
  c1_traversal_matches_scan 1 1 1 exUnitVerts exUnitTris (smallBuilt exUnitVerts exUnitTris)
    exC1Ray exC1Out (by decide) (by decide) (by decide) (by decide) (by decide)

end BvhSpec
